import Mathlib

/-!
# Moneta: `Process.cpp`

A shallow embedding of the process snapshot code of Moneta (`src/Process.cpp`):
the suspicion filter `FilterSuspicions`, the selection performed by
`Process::Enumerate`, and the constructor `Process::Process` with its region
walk.  Addresses are natural numbers, `std::map` is an association list kept in
key order, `std::list` and `std::vector` are lists, and a `std::wstring` is the
list of its characters.

Undefined behaviour of the source is a `fault` of the embedding: the
comparison of line 326 when it starts before the buffer of the path, the call
through a null `PeEntity`, the increment of an iterator after the element it
points at was erased (lines 289, 285 and 276 after the erasures of lines
329-340), and the end of `DumpBlock` reached without a `return`.  Logging is
left out.
-/

set_option autoImplicit false

namespace Moneta

/-! ## Results of code that can reach undefined behaviour -/

/-- Outcome of running a piece of the source: a value, a `fault` when the
source reaches undefined behaviour (a read outside a buffer, a null
dereference, the use of an erased iterator), or `diverge` when the loop of the
model was cut off before the source loop ended. -/
inductive Outcome (α : Type) where
  | ok (a : α)
  | fault
  | diverge
  deriving DecidableEq, Repr

/-- Apply a function to the value of an outcome. -/
def Outcome.map {α β : Type} (f : α → β) : Outcome α → Outcome β
  | .ok a => .ok (f a)
  | .fault => .fault
  | .diverge => .diverge

/-! ## Wide strings -/

/-- The `towlower` of the "C" locale, the locale of a program that never calls
`setlocale`: only `A`..`Z` are mapped. -/
def towlower (c : Char) : Char :=
  if 65 ≤ c.toNat ∧ c.toNat ≤ 90 then Char.ofNat (c.toNat + 32) else c

/-- The C string that starts at a pointer into a buffer: the characters up to
the first null character (the end of the list is the terminating null). -/
def cstr (buf : List Char) : List Char :=
  buf.takeWhile (fun c => c.toNat ≠ 0)

/-- Length of a C string, `wcslen`. -/
def wcslen (s : List Char) : Nat := (cstr s).length

/-- Case-insensitive comparison `_wcsicmp` of two C strings: the difference of
the first pair of lower-cased characters that differ, `0` when there is none. -/
def wcsicmp : List Char → List Char → Int
  | [], [] => 0
  | [], b :: _ => 0 - ((towlower b).toNat : Int)
  | a :: _, [] => ((towlower a).toNat : Int)
  | a :: as, b :: bs =>
    if towlower a = towlower b then wcsicmp as bs
    else ((towlower a).toNat : Int) - ((towlower b).toNat : Int)

/-- The extension literal `pWinmbExt` of `FilterSuspicions`. -/
def pWinmbExt : List Char := ".winmd".toList

/-- Offset added to `GetPath().c_str()` at line 326:
`GetPath().length() - wcslen(pWinmbExt)`, as a signed quantity. -/
def winmdOffset (Path : List Char) : Int :=
  (Path.length : Int) - (wcslen pWinmbExt : Int)

/-- The comparison of line 326,
`_wcsicmp(Path.c_str() + Path.length() - wcslen(pWinmbExt), pWinmbExt)`.
When the offset is negative the pointer lies before the buffer of the string
and the read is outside it: no value. -/
def winmdCompare (Path : List Char) : Option Int :=
  if winmdOffset Path < 0 then none
  else some (wcsicmp (cstr (Path.drop (winmdOffset Path).toNat)) (cstr pWinmbExt))

/-! ## Suspicions -/

/-- Modelled from the spec: the enumeration `Suspicion::Type` is declared in
`Suspicions.hpp`, which is not part of the sources at hand; the kinds are those
of the rule catalog of the specification (§4.5). -/
inductive SuspicionType where
  | XPRV
  | XMAP
  | MODIFIED_CODE
  | MODIFIED_HEADER
  | DISK_PERMISSION_MISMATCH
  | MISSING_PEB_MODULE
  | PHANTOM_IMAGE
  | NON_EXECUTABLE_IMAGE
  deriving DecidableEq, Repr

/-- What `FilterSuspicions` reads of a `PeVm::Body`: `IsSigned()`,
`GetFileBase()->GetPath()`, and `GetPe()` with its `GetEntryPoint()` (`none`
for a null `GetPe()`). -/
structure PeBody where
  Signed : Bool
  Path : List Char
  Pe : Option Nat
  deriving DecidableEq, Repr

/-- What the code reads of a `Suspicion`: `GetType()`, whether the block of
`GetBlock()` has `MEMORY_SUBREGION_FLAG_HEAP` among its flags,
`IsFullEntitySuspicion()`, and `GetParentObject()` seen through
`dynamic_cast<const PeVm::Body*>` (`none` when the cast yields null). -/
structure Suspicion where
  SuspType : SuspicionType
  BlockHeap : Bool
  FullEntity : Bool
  Parent : Option PeBody
  deriving DecidableEq, Repr

/-- The inner map `map<uint8_t*, list<Suspicion*>>`, keyed by subregion
address. -/
abbrev SbMap := List (Nat × List Suspicion)

/-- The suspicion map `map<uint8_t*, map<uint8_t*, list<Suspicion*>>>`, keyed
by allocation base. -/
abbrev SuspicionsMap := List (Nat × SbMap)

/-! ## `FilterSuspicions` (lines 260-355) -/

/-- The `switch` of lines 290-348 on one suspicion: `some true` when the
suspicion is erased, `some false` when it is left alone, `none` when the
evaluation reaches undefined behaviour (null `PeEntity`, or the comparison of
line 326 on a path shorter than the extension). -/
def filterCase (s : Suspicion) : Option Bool :=
  match s.SuspType with
  | .XPRV => some (s.BlockHeap && false)
  | .MISSING_PEB_MODULE =>
    match s.Parent with
    | none => none
    | some PeEntity =>
      if PeEntity.Signed then
        match winmdCompare PeEntity.Path with
        | none => none
        | some c =>
          if c = 0 then
            match PeEntity.Pe with
            | some EntryPoint => some (EntryPoint == 0)
            | none => some false
          else some false
      else some false
  | _ => some false

/-- What one walk of a container did. -/
inductive Scan (α : Type) where
  /-- the walk reached undefined behaviour while it examined a suspicion -/
  | fault
  /-- the walk reached the end with `bReWalkMap` still false -/
  | clean
  /-- one suspicion was erased and `bReWalkMap` set, `rest` being the container
  after the erasures of lines 329-340; the header of the loop then incremented
  the iterator of the erased element, which is undefined behaviour -/
  | stale (rest : α)
  deriving DecidableEq, Repr

/-- The loop of line 289 over one suspicion list.  The first suspicion the
`switch` filters is erased from the list (line 329); the `break` of line 346
leaves the `switch` only, and the header of the loop applies `++SuspItr` to the
iterator of the erased element before it tests `bReWalkMap`: `stale`. -/
def walkList : List Suspicion → Scan (List Suspicion)
  | [] => .clean
  | s :: rest =>
    match filterCase s with
    | none => .fault
    | some true => .stale rest
    | some false =>
      match walkList rest with
      | .fault => .fault
      | .clean => .clean
      | .stale rest1 => .stale (s :: rest1)

/-- The loop of line 285 over one subregion map.  In the body of the inner
loop, after an erasure, the entry of a list left with size 0 is erased from the
subregion map (lines 331-336); the header of line 285 then applies
`++SbMapItr`, to the iterator of the erased entry when there was one. -/
def walkSbMap : SbMap → Scan SbMap
  | [] => .clean
  | (pSbAddress, SuspList) :: rest =>
    match walkList SuspList with
    | .fault => .fault
    | .stale SuspList1 =>
      if SuspList1.length = 0 then .stale rest
      else .stale ((pSbAddress, SuspList1) :: rest)
    | .clean =>
      match walkSbMap rest with
      | .fault => .fault
      | .clean => .clean
      | .stale rest1 => .stale ((pSbAddress, SuspList) :: rest1)

/-- The loop of line 276 over the suspicion map.  In the body of the inner
loop, after an erasure that left the subregion map with size 0, its entry is
erased too (lines 338-340); the header of line 276 then applies `++AbMapItr`,
to the iterator of the erased entry when there was one. -/
def walkMap : SuspicionsMap → Scan SuspicionsMap
  | [] => .clean
  | (pAbAddress, RefSbMap) :: rest =>
    match walkSbMap RefSbMap with
    | .fault => .fault
    | .stale RefSbMap1 =>
      if RefSbMap1.length = 0 then .stale rest
      else .stale ((pAbAddress, RefSbMap1) :: rest)
    | .clean =>
      match walkMap rest with
      | .fault => .fault
      | .clean => .clean
      | .stale rest1 => .stale ((pAbAddress, RefSbMap) :: rest1)

/-- Number of suspicions held by a subregion map. -/
def sbCount (m : SbMap) : Nat := (m.map (fun e => e.2.length)).sum

/-- Number of suspicions held by a suspicion map. -/
def suspicionCount (M : SuspicionsMap) : Nat := (M.map (fun e => sbCount e.2)).sum

/-- The run of `FilterSuspicions`, the `do { ... } while (bReWalkMap)` of
lines 263-352: the map it leaves and the number of times the outer walk was
executed.  A walk that leaves `bReWalkMap` false ends the loop at line 352.  A
walk that erased a suspicion has incremented the iterators of erased elements
before line 352 is reached, so the second walk is never reached by defined
behaviour. -/
def FilterSuspicionsRun (M : SuspicionsMap) : Outcome (SuspicionsMap × Nat) :=
  match walkMap M with
  | .fault => .fault
  | .clean => .ok (M, 1)
  | .stale _ => .fault

/-- State of the map after `FilterSuspicions(SuspicionsMap)`. -/
def FilterSuspicions (M : SuspicionsMap) : Outcome SuspicionsMap :=
  (FilterSuspicionsRun M).map Prod.fst

/-! ## Specification of the filter -/
/-- No subregion entry of a subregion map has an empty suspicion list. -/
def sbEmptyFree (m : SbMap) : Prop := ∀ e ∈ m, e.2 ≠ []

/-- The suspicion map is empty-free. -/
def emptyFree (M : SuspicionsMap) : Prop := ∀ e ∈ M, e.2 ≠ [] ∧ sbEmptyFree e.2

/-- A path ends in an extension, compared case-insensitively. -/
def endsWithNoCase (Path ext : List Char) : Prop :=
  ext.map towlower <:+ Path.map towlower

instance (Path ext : List Char) : Decidable (endsWithNoCase Path ext) := by
  unfold endsWithNoCase; infer_instance

/-- A suspicion is droppable: its kind is `MISSING_PEB_MODULE`, its parent
image is signed, the backing path ends in `.winmd` compared
case-insensitively, and the parsed PE view is present with entry point 0. -/
def droppable (s : Suspicion) : Bool :=
  decide (s.SuspType = .MISSING_PEB_MODULE) &&
    match s.Parent with
    | some pe => pe.Signed && decide (endsWithNoCase pe.Path ".winmd".toList) &&
        decide (pe.Pe = some 0)
    | none => false

/-- The suspicions of a subregion map in the order of the walk, each with the
allocation base `ab` and the subregion address it is stored under. -/
def sbEntries (ab : Nat) (m : SbMap) : List (Nat × Nat × Suspicion) :=
  m.flatMap (fun e => e.2.map (fun s => (ab, e.1, s)))

/-- The suspicions of a suspicion map in the order of the walk, each with its
two keys. -/
def entries (M : SuspicionsMap) : List (Nat × Nat × Suspicion) :=
  M.flatMap (fun e => sbEntries e.1 e.2)

/-- The filter can examine a suspicion without leaving the objects it reads:
a `MISSING_PEB_MODULE` suspicion has a PE image as parent and, when that image
is signed, a backing path of at least the six characters of `.winmd`. -/
def examinable (s : Suspicion) : Prop :=
  s.SuspType = .MISSING_PEB_MODULE →
    ∃ pe, s.Parent = some pe ∧ (pe.Signed = true → 6 ≤ pe.Path.length)


instance (m : SbMap) : Decidable (sbEmptyFree m) := by
  unfold sbEmptyFree; infer_instance

instance (M : SuspicionsMap) : Decidable (emptyFree M) := by
  unfold emptyFree; infer_instance

/-! ## Fixtures -/

/-- The signed metadata image of scenario 4 of the specification: backing
path `...\Windows.UI.winmd`, parsed entry point 0. -/
def winmdImage : PeBody :=
  { Signed := true
    Path := "C:\\Windows\\System32\\WinMetadata\\Windows.UI.winmd".toList
    Pe := some 0 }

/-- The `MISSING_PEB_MODULE` finding on the signed metadata image. -/
def winmdSuspicion : Suspicion :=
  { SuspType := .MISSING_PEB_MODULE, BlockHeap := false, FullEntity := true,
    Parent := some winmdImage }

/-- A signed image mapped from the five-character path `C:\ab`. -/
def shortPathImage : PeBody :=
  { Signed := true, Path := "C:\\ab".toList, Pe := some 4096 }

/-- The `MISSING_PEB_MODULE` finding on the image of path `C:\ab`. -/
def shortPathSuspicion : Suspicion :=
  { SuspType := .MISSING_PEB_MODULE, BlockHeap := false, FullEntity := true,
    Parent := some shortPathImage }

/-- An `XPRV` finding on a heap-flagged private subregion. -/
def xprvSuspicion : Suspicion :=
  { SuspType := .XPRV, BlockHeap := true, FullEntity := false, Parent := none }

/-- A subregion-scope `DISK_PERMISSION_MISMATCH` finding on a section of the
metadata image. -/
def mismatchSuspicion : Suspicion :=
  { SuspType := .DISK_PERMISSION_MISMATCH, BlockHeap := false, FullEntity := false,
    Parent := some winmdImage }

/-- A map with four entities: a private region with an `XPRV` finding; an image
whose only finding is droppable; an image with a droppable finding next to
another one, and a finding on a second subregion; an image with a droppable
finding alone in its list, and a finding on a second subregion. -/
def mixedMap : SuspicionsMap :=
  [(0x30000000, [(0x30000000, [xprvSuspicion])]),
   (0x50000000, [(0x50000000, [winmdSuspicion])]),
   (0x60000000, [(0x60000000, [winmdSuspicion, mismatchSuspicion]),
                 (0x60001000, [mismatchSuspicion])]),
   (0x70000000, [(0x70000000, [winmdSuspicion]), (0x70001000, [mismatchSuspicion])])]

/-- The map `mixedMap` without its three droppable findings, and without the
entries they were alone in. -/
def mixedMapFiltered : SuspicionsMap :=
  [(0x30000000, [(0x30000000, [xprvSuspicion])]),
   (0x60000000, [(0x60000000, [mismatchSuspicion]), (0x60001000, [mismatchSuspicion])]),
   (0x70000000, [(0x70001000, [mismatchSuspicion])])]

/-- The suspicion map of scenario 4 of the specification: the only finding is
the droppable one on the signed metadata image at `0x50000000`. -/
def scenario4Map : SuspicionsMap := [(0x50000000, [(0x50000000, [winmdSuspicion])])]

/-- A map with two entities and no droppable finding. -/
def plainMap : SuspicionsMap :=
  [(0x30000000, [(0x30000000, [xprvSuspicion])]),
   (0x60000000, [(0x60000000, [mismatchSuspicion]), (0x60001000, [mismatchSuspicion])])]

/-- A private region with an `XPRV` finding, and an image whose only finding
is droppable. -/
def xprvAndWinmdMap : SuspicionsMap :=
  [(0x30000000, [(0x30000000, [xprvSuspicion])]),
   (0x50000000, [(0x50000000, [winmdSuspicion])])]

/-- Two images, the only finding of each being droppable. -/
def twoWinmdMap : SuspicionsMap :=
  [(0x50000000, [(0x50000000, [winmdSuspicion])]),
   (0x70000000, [(0x70000000, [winmdSuspicion])])]

/-! ## Regions, subregions and entities -/

/-- The region descriptor `MEMORY_BASIC_INFORMATION` filled by
`VirtualQueryEx`; `MemType` is its field `Type`. -/
structure MEMORY_BASIC_INFORMATION where
  BaseAddress : Nat
  AllocationBase : Nat
  AllocationProtect : Nat
  RegionSize : Nat
  State : Nat
  Protect : Nat
  MemType : Nat
  deriving DecidableEq, Repr

/-- Region state `MEM_COMMIT` of the Windows headers. -/
def MEM_COMMIT : Nat := 0x1000

/-- Region state `MEM_RESERVE` of the Windows headers. -/
def MEM_RESERVE : Nat := 0x2000

/-- Region state `MEM_FREE` of the Windows headers. -/
def MEM_FREE : Nat := 0x10000

/-- Region type `MEM_PRIVATE` of the Windows headers. -/
def MEM_PRIVATE : Nat := 0x20000

/-- Region type `MEM_MAPPED` of the Windows headers. -/
def MEM_MAPPED : Nat := 0x40000

/-- Region type `MEM_IMAGE` of the Windows headers. -/
def MEM_IMAGE : Nat := 0x1000000

/-- What the code reads of a `Subregion`: the descriptor of `GetBasic()`, the
flags of `GetFlags()` and `GetPrivateSize()`. -/
structure Subregion where
  Basic : MEMORY_BASIC_INFORMATION
  Flags : Nat
  PrivateSize : Nat
  deriving DecidableEq, Repr

/-- The values of `Entity::Type` the code tells apart: `PE_FILE`,
`MAPPED_FILE`, and any other value (`OTHER`, a plain `Region`). -/
inductive EntityType where
  | PE_FILE
  | MAPPED_FILE
  | OTHER
  deriving DecidableEq, Repr

/-- What the code reads of an `Entity`: `GetType()`, `GetStartVa()`,
`GetEndVa()` and the vector of `GetSubregions()`, which is never empty (an
entity is only created from a group that passed `!Subregions.empty()`) and is
held as its `front()` and the elements after it. -/
structure Entity where
  EntType : EntityType
  StartVa : Nat
  EndVa : Nat
  front : Subregion
  tail : List Subregion
  deriving DecidableEq, Repr

/-- The vector returned by `Entity::GetSubregions()`. -/
def Entity.GetSubregions (e : Entity) : List Subregion := e.front :: e.tail

/-- The entity map `map<uint8_t*, Entity*>` of a process, keyed by allocation
base. -/
abbrev EntityMap := List (Nat × Entity)

/-- What the code reads of a `Thread`. -/
structure Thread where
  Tid : Nat
  EntryPoint : Nat
  deriving DecidableEq, Repr

/-- The members of `Process`. -/
structure Process where
  Pid : Nat
  Name : List Char
  ImageFilePath : List Char
  Wow64 : Bool
  Heaps : List Nat
  Threads : List Thread
  Entities : EntityMap
  deriving DecidableEq, Repr

/-! ## `Process::Enumerate` (lines 451-671) -/

/-- Modelled from the spec: the bit masks `PROCESS_ENUM_FLAG_FROM_BASE` and
`PROCESS_ENUM_FLAG_MEMDUMP` are declared in `Processes.hpp`, which is not part
of the sources at hand.  Each field is the truth value of the test
`qwOptFlags & PROCESS_ENUM_FLAG_...` for the option of that name. -/
structure OptFlags where
  FROM_BASE : Bool
  MEMDUMP : Bool
  deriving DecidableEq, Repr

/-- The selection modes of `MemorySelection_t` the code tests for. -/
inductive MemorySelection_t where
  | All
  | Block
  | Suspicious
  deriving DecidableEq, Repr

/-- Lookup by key in a `std::map` (`find`, `at`, `count`): the value stored
under `k`, if any. -/
def mapFind {β : Type} : List (Nat × β) → Nat → Option β
  | [], _ => none
  | (k1, v) :: rest, k => if k1 = k then some v else mapFind rest k

/-- The function `SubEntitySuspCount` (lines 398-412): the number of suspicions stored
under `pSbAddress` that are not full-entity suspicions; 0 for a null map or an
absent key. -/
def SubEntitySuspCount (Suspicions : Option SbMap) (pSbAddress : Nat) : Nat :=
  match Suspicions with
  | none => 0
  | some m =>
    match mapFind m pSbAddress with
    | none => 0
    | some SuspicionsList =>
      SuspicionsList.foldl (fun nCount s => if !s.FullEntity then nCount + 1 else nCount) 0

/-- The condition of lines 482-484 under which an entity is enumerated;
`AbFound` is `AbMapItr != SuspicionsMap.end()`. -/
def entitySelected (MemSelectType : MemorySelection_t) (pSelectAddress : Nat) (e : Entity)
    (AbFound : Bool) : Bool :=
  MemSelectType == .All ||
  (MemSelectType == .Block &&
    (decide (pSelectAddress ≥ e.StartVa) && decide (pSelectAddress < e.EndVa))) ||
  (MemSelectType == .Suspicious && AbFound)

/-- The condition of lines 587-592 under which a subregion of an enumerated
entity is selected; `SbrMap` is the subregion map of the entity, `none` for the
null pointer. -/
def sbrSelected (qwOptFlags : OptFlags) (MemSelectType : MemorySelection_t)
    (pSelectAddress : Nat) (SbrMap : Option SbMap) (Sbr : Subregion) : Bool :=
  MemSelectType == .All ||
  (MemSelectType == .Block &&
    (pSelectAddress == Sbr.Basic.BaseAddress || qwOptFlags.FROM_BASE)) ||
  (MemSelectType == .Suspicious &&
    (qwOptFlags.FROM_BASE ||
      ((match SbrMap with
          | none => false
          | some m => (mapFind m Sbr.Basic.BaseAddress).isSome) &&
        decide (SubEntitySuspCount SbrMap Sbr.Basic.BaseAddress > 0))))

/-- The loop of lines 586-655 over the subregions of one entity: the selected
ones are pushed back on `SelectedSbrs`. -/
def enumerateSubregions (qwOptFlags : OptFlags) (MemSelectType : MemorySelection_t)
    (pSelectAddress : Nat) (SbrMap : Option SbMap) :
    List Subregion → List Subregion → List Subregion
  | [], SelectedSbrs => SelectedSbrs
  | Sbr :: rest, SelectedSbrs =>
    if sbrSelected qwOptFlags MemSelectType pSelectAddress SbrMap Sbr then
      enumerateSubregions qwOptFlags MemSelectType pSelectAddress SbrMap rest
        (SelectedSbrs ++ [Sbr])
    else
      enumerateSubregions qwOptFlags MemSelectType pSelectAddress SbrMap rest SelectedSbrs

/-- The loop of lines 474-668 over the entities.  An entity that meets the
condition of line 482 and is neither a PE file nor a mapped file is passed over
by the `continue` of line 530 unless its first subregion is private. -/
def enumerateEntities (qwOptFlags : OptFlags) (MemSelectType : MemorySelection_t)
    (pSelectAddress : Nat) (SuspicionsMap : SuspicionsMap) :
    EntityMap → List Subregion → List Subregion
  | [], SelectedSbrs => SelectedSbrs
  | (_, e) :: rest, SelectedSbrs =>
    let SbrMap := mapFind SuspicionsMap e.StartVa
    if entitySelected MemSelectType pSelectAddress e SbrMap.isSome then
      if e.EntType = .PE_FILE then
        enumerateEntities qwOptFlags MemSelectType pSelectAddress SuspicionsMap rest
          (enumerateSubregions qwOptFlags MemSelectType pSelectAddress SbrMap
            e.GetSubregions SelectedSbrs)
      else if e.EntType = .MAPPED_FILE then
        enumerateEntities qwOptFlags MemSelectType pSelectAddress SuspicionsMap rest
          (enumerateSubregions qwOptFlags MemSelectType pSelectAddress SbrMap
            e.GetSubregions SelectedSbrs)
      else if e.front.Basic.MemType = MEM_PRIVATE then
        enumerateEntities qwOptFlags MemSelectType pSelectAddress SuspicionsMap rest
          (enumerateSubregions qwOptFlags MemSelectType pSelectAddress SbrMap
            e.GetSubregions SelectedSbrs)
      else
        enumerateEntities qwOptFlags MemSelectType pSelectAddress SuspicionsMap rest SelectedSbrs
    else
      enumerateEntities qwOptFlags MemSelectType pSelectAddress SuspicionsMap rest SelectedSbrs

/-- The suspicion map after lines 466-468: filtered when it is not empty. -/
def filteredSuspicions (Inspected : SuspicionsMap) : Outcome SuspicionsMap :=
  if Inspected.length ≠ 0 then FilterSuspicions Inspected else .ok Inspected

/-- The vector returned by `Process::Enumerate`.  `Inspected` is the map the
calls of `Suspicion::InspectEntity` at lines 462-464 have built
(`Suspicions.cpp` is not part of the sources at hand).  Logging and the memory
dumps asked for by `MEMDUMP` do not change the returned vector and are left
out. -/
def Process.Enumerate (P : Process) (Inspected : SuspicionsMap) (qwOptFlags : OptFlags)
    (MemSelectType : MemorySelection_t) (pSelectAddress : Nat) : Outcome (List Subregion) :=
  (filteredSuspicions Inspected).map
    (fun M => enumerateEntities qwOptFlags MemSelectType pSelectAddress M P.Entities [])

/-! ## Specification of the selection -/

/-- An entity is shown by `Process.Enumerate`: it is a PE file, a mapped file, or its
first subregion is private memory. -/
def shown (e : Entity) : Prop :=
  e.EntType = .PE_FILE ∨ e.EntType = .MAPPED_FILE ∨ e.front.Basic.MemType = MEM_PRIVATE

instance (e : Entity) : Decidable (shown e) := by
  unfold shown; infer_instance

/-- The entity has an entry in the suspicion map. -/
def hasEntry (M : SuspicionsMap) (e : Entity) : Prop :=
  ∃ sb, mapFind M e.StartVa = some sb

instance (M : SuspicionsMap) (e : Entity) : Decidable (hasEntry M e) :=
  decidable_of_iff ((mapFind M e.StartVa).isSome = true) (by
    unfold hasEntry
    cases mapFind M e.StartVa <;> simp)

/-- The subregion carries, in the entry of its entity, at least one suspicion
that is not entity-scope. -/
def carriesSubregionScope (M : SuspicionsMap) (e : Entity) (s : Subregion) : Prop :=
  ∃ sb l, mapFind M e.StartVa = some sb ∧ mapFind sb s.Basic.BaseAddress = some l ∧
    ∃ x ∈ l, x.FullEntity = false

instance (M : SuspicionsMap) (e : Entity) (s : Subregion) :
    Decidable (carriesSubregionScope M e s) :=
  decidable_of_iff
    ((match mapFind M e.StartVa with
      | none => false
      | some sb =>
        match mapFind sb s.Basic.BaseAddress with
        | none => false
        | some l => l.any (fun x => !x.FullEntity)) = true) (by
    unfold carriesSubregionScope
    cases h1 : mapFind M e.StartVa with
    | none => simp
    | some sb =>
      cases h2 : mapFind sb s.Basic.BaseAddress with
      | none => simp [h2]
      | some l => simp [h2])

/-- The extent `[StartVa, EndVa)` of the entity contains the address. -/
def extentContains (e : Entity) (addr : Nat) : Prop := e.StartVa ≤ addr ∧ addr < e.EndVa

instance (e : Entity) (addr : Nat) : Decidable (extentContains e addr) := by
  unfold extentContains; infer_instance

/-- The subregions of the entities that satisfy `sel`, restricted within each
entity to those that satisfy `keep`, in the order of the entity map and of the
subregion vectors. -/
def selection (P : Process) (sel : Entity → Prop) [DecidablePred sel]
    (keep : Entity → Subregion → Prop) [∀ e s, Decidable (keep e s)] : List Subregion :=
  P.Entities.flatMap (fun p =>
    if sel p.2 then p.2.GetSubregions.filter (fun s => decide (keep p.2 s)) else [])

/-! ## Fixtures for the selection -/

/-- The free region at the bottom of the address space, as `VirtualQueryEx`
reports it: state `MEM_FREE`, no type, allocation base null. -/
def freeSbr : Subregion :=
  { Basic := { BaseAddress := 0, AllocationBase := 0, AllocationProtect := 0,
               RegionSize := 0x10000, State := MEM_FREE, Protect := 1, MemType := 0 }
    Flags := 0, PrivateSize := 0 }

/-- The entity made of the free region. -/
def freeEntity : Entity :=
  { EntType := .OTHER, StartVa := 0, EndVa := 0x10000, front := freeSbr, tail := [] }

/-- A committed private read-write region of 64 KiB at `0x10000000`. -/
def heapSbr : Subregion :=
  { Basic := { BaseAddress := 0x10000000, AllocationBase := 0x10000000, AllocationProtect := 4,
               RegionSize := 0x10000, State := MEM_COMMIT, Protect := 4, MemType := MEM_PRIVATE }
    Flags := 1, PrivateSize := 0x10000 }

/-- The private entity made of the region at `0x10000000`. -/
def heapEntity : Entity :=
  { EntType := .OTHER, StartVa := 0x10000000, EndVa := 0x10010000, front := heapSbr, tail := [] }

/-- A process whose entity map holds the free region and the private region. -/
def freeAndHeapProcess : Process :=
  { Pid := 4242, Name := "a.exe".toList, ImageFilePath := "C:\\a.exe".toList, Wow64 := false,
    Heaps := [0x10000000], Threads := [],
    Entities := [(0, freeEntity), (0x10000000, heapEntity)] }

/-- A committed executable view of a section that is backed by no file, at
`0x20000000`: type `MEM_MAPPED`. -/
def sharedSbr : Subregion :=
  { Basic := { BaseAddress := 0x20000000, AllocationBase := 0x20000000, AllocationProtect := 0x40,
               RegionSize := 0x1000, State := MEM_COMMIT, Protect := 0x40, MemType := MEM_MAPPED }
    Flags := 0, PrivateSize := 0 }

/-- A subregion-scope `XMAP` finding. -/
def xmapSuspicion : Suspicion :=
  { SuspType := .XMAP, BlockHeap := false, FullEntity := false, Parent := none }

/-- A suspicion map with the `XMAP` finding anchored on the view at
`0x20000000`. -/
def sharedMap : SuspicionsMap := [(0x20000000, [(0x20000000, [xmapSuspicion])])]

/-- The private executable region of scenario 2 of the specification, at
`0x30000000`. -/
def rwxSbr : Subregion :=
  { Basic := { BaseAddress := 0x30000000, AllocationBase := 0x30000000, AllocationProtect := 0x40,
               RegionSize := 0x1000, State := MEM_COMMIT, Protect := 0x40, MemType := MEM_PRIVATE }
    Flags := 0, PrivateSize := 0x1000 }

/-- The private entity of scenario 2. -/
def rwxEntity : Entity :=
  { EntType := .OTHER, StartVa := 0x30000000, EndVa := 0x30001000, front := rwxSbr, tail := [] }

/-- The process of scenario 2, with the free region below the allocation. -/
def rwxProcess : Process :=
  { Pid := 4242, Name := "a.exe".toList, ImageFilePath := "C:\\a.exe".toList, Wow64 := false,
    Heaps := [], Threads := [], Entities := [(0, freeEntity), (0x30000000, rwxEntity)] }

/-- The suspicion map of scenario 2: one subregion-scope `XPRV` finding. -/
def rwxMap : SuspicionsMap :=
  [(0x30000000, [(0x30000000,
    [{ SuspType := .XPRV, BlockHeap := false, FullEntity := false, Parent := none }])])]

/-! ## `Process::Process` (lines 68-233) -/

/-- Insertion in a `std::map` with `insert`: the map stays in key order and an
entry whose key is present already is left as it is. -/
def mapInsert {β : Type} (k : Nat) (v : β) : List (Nat × β) → List (Nat × β)
  | [] => [(k, v)]
  | (k1, v1) :: rest =>
    if k < k1 then (k, v) :: (k1, v1) :: rest
    else if k = k1 then (k1, v1) :: rest
    else (k1, v1) :: mapInsert k v rest

/-- Modelled from the spec: `Entity::Create` is defined in `Memory.cpp`, which
is not part of the sources at hand.  After §3 and §4.3 of the specification the
entity carries the ordered sequence of subregions it is created from, its
start is the allocation base of the first subregion, its variant is an image, a
mapped file or a private region after the type of the first subregion, and its
total size is the sum of the subregion sizes (taken here as the length of its
extent). -/
def Entity.Create (Region : Subregion) (rest : List Subregion) : Entity :=
  { EntType :=
      if Region.Basic.MemType = MEM_IMAGE then .PE_FILE
      else if Region.Basic.MemType = MEM_MAPPED then .MAPPED_FILE
      else .OTHER
    StartVa := Region.Basic.AllocationBase
    EndVa := Region.Basic.AllocationBase +
      ((Region :: rest).map (fun s => s.Basic.RegionSize)).sum
    front := Region
    tail := rest }

/-- The variables of the region walk: the pending group `Subregions` (whose
first element is what the iterator `Region` points at after line 217) and the
entity map of the process. -/
structure WalkState where
  Subregions : List Subregion
  Entities : EntityMap
  deriving DecidableEq, Repr

/-- The insertion of lines 211 and 221: the pending group, when it is not
empty, is made an entity and inserted under the allocation base of its first
subregion. -/
def finalizeGroup (st : WalkState) : EntityMap :=
  match st.Subregions with
  | [] => st.Entities
  | Region :: rest =>
    mapInsert Region.Basic.AllocationBase (Entity.Create Region rest) st.Entities

/-- One successful query (lines 207-217).  `Sbr` is the subregion
`new Subregion(*this, Mbi)` made from the descriptor the query returned. -/
def walkQuery (st : WalkState) (Sbr : Subregion) : WalkState :=
  match st.Subregions with
  | [] => { Subregions := [Sbr], Entities := st.Entities }
  | Region :: rest =>
    if Sbr.Basic.AllocationBase ≠ Region.Basic.AllocationBase then
      { Subregions := [Sbr]
        Entities :=
          mapInsert Region.Basic.AllocationBase (Entity.Create Region rest) st.Entities }
    else
      { Subregions := (Region :: rest) ++ [Sbr], Entities := st.Entities }

/-- The loop of lines 203-227 over the results of the successive calls of
`VirtualQueryEx`: `some Sbr` for a call that succeeded, `none` for one that
failed.  The loop ends at the first failed call; results after it are never
asked for, and a sequence without a failed call leaves the loop running. -/
def regionWalk : List (Option Subregion) → WalkState → Outcome EntityMap
  | [], _ => .diverge
  | none :: _, st => .ok (finalizeGroup st)
  | some Sbr :: rest, st => regionWalk rest (walkQuery st Sbr)

/-- The region walk of a new process: no pending group, empty entity map. -/
def RegionWalk (results : List (Option Subregion)) : Outcome EntityMap :=
  regionWalk results { Subregions := [], Entities := [] }

/-- An entry of the thread list of `CreateToolhelp32Snapshot`. -/
structure THREADENTRY32 where
  th32ThreadID : Nat
  th32OwnerProcessID : Nat
  deriving DecidableEq, Repr

/-- What the operating system answers to the calls of the constructor. -/
structure OsAnswers where
  /-- whether `OpenProcess` returned a handle -/
  OpenProcess : Bool
  /-- the name written by `GetModuleBaseNameW`, `none` when it returns 0 -/
  GetModuleBaseNameW : Option (List Char)
  /-- the path written by `GetProcessImageFileNameW`, `none` when it returns 0 -/
  GetProcessImageFileNameW : Option (List Char)
  /-- the path written by `FileBase::TranslateDevicePath`, `none` on failure -/
  TranslateDevicePath : Option (List Char)
  /-- whether `GetProcAddress` found `IsWow64Process` -/
  IsWow64ProcessFound : Bool
  /-- the answer of `IsWow64Process` for the inspector, `none` when it fails -/
  SelfWow64 : Option Bool
  /-- the answer of `IsWow64Process` for the target, `none` when it fails -/
  TargetWow64 : Option Bool
  /-- the value the member `Wow64` holds when the constructor never assigns it -/
  Wow64Unset : Bool
  /-- the heap bases read from the PEB (lines 107-173), by the layout chosen -/
  ReadHeaps : Bool → List Nat
  /-- the thread list, `none` when `CreateToolhelp32Snapshot` fails -/
  ThreadSnap : Option (List THREADENTRY32)
  /-- the record made by `new Thread(tid, *this)`, `none` when the constructor of `Thread` throws -/
  NewThread : Nat → Option Thread
  /-- the results of the successive calls of `VirtualQueryEx` -/
  RegionQueries : List (Option Subregion)

/-- The places where the constructor throws. -/
inductive CtorThrow where
  /-- the `throw 1` of line 231 -/
  | OpenFailed
  /-- the `throw 2` of line 94 -/
  | ArchitectureMismatch
  /-- the `throw 2` of line 189 -/
  | ThreadQueryFailed
  deriving DecidableEq, Repr

/-- The integer thrown. -/
def CtorThrow.value : CtorThrow → Int
  | .OpenFailed => 1
  | .ArchitectureMismatch => 2
  | .ThreadQueryFailed => 2

/-- How a construction ends. -/
inductive Construction where
  | thrown (e : CtorThrow)
  | built (P : Process)
  | diverge
  deriving DecidableEq, Repr

/-- Lines 74-101: the name, the image path and the `Wow64` member they leave,
or the throw of line 94.  The Wow64 queries are made only inside the branch
where the two name queries and the path translation have succeeded. -/
def identityAndArchitecture (os : OsAnswers) :
    Except CtorThrow (List Char × List Char × Bool) :=
  match os.GetModuleBaseNameW, os.GetProcessImageFileNameW with
  | some ImageName, some _ =>
    match os.TranslateDevicePath with
    | some ImageFilePath =>
      if os.IsWow64ProcessFound then
        match os.SelfWow64 with
        | some bSelfWow64 =>
          match os.TargetWow64 with
          | some Wow64 =>
            if Wow64 then .ok (ImageName, ImageFilePath, Wow64)
            else if bSelfWow64 then .error .ArchitectureMismatch
            else .ok (ImageName, ImageFilePath, Wow64)
          | none => .ok (ImageName, ImageFilePath, os.Wow64Unset)
        | none => .ok (ImageName, ImageFilePath, os.Wow64Unset)
      else .ok (ImageName, ImageFilePath, os.Wow64Unset)
    | none => .ok ([], [], os.Wow64Unset)
  | _, _ => .ok ([], [], os.Wow64Unset)

/-- The loop of lines 182-192 over the thread list: a thread record is made for
each entry owned by `Pid`; `none` when the making of one throws (line 189). -/
def collectThreads (Pid : Nat) (NewThread : Nat → Option Thread) :
    List THREADENTRY32 → List Thread → Option (List Thread)
  | [], Threads => some Threads
  | ThreadEntry :: rest, Threads =>
    if ThreadEntry.th32OwnerProcessID = Pid then
      match NewThread ThreadEntry.th32ThreadID with
      | some t => collectThreads Pid NewThread rest (Threads ++ [t])
      | none => none
    else collectThreads Pid NewThread rest Threads

/-- The constructor `Process::Process(dwPid)`. -/
def Process.Construct (dwPid : Nat) (os : OsAnswers) : Construction :=
  if os.OpenProcess then
    match identityAndArchitecture os with
    | .error e => .thrown e
    | .ok (Name, ImageFilePath, Wow64) =>
      match (match os.ThreadSnap with
              | some entries => collectThreads dwPid os.NewThread entries []
              | none => some []) with
      | none => .thrown .ThreadQueryFailed
      | some Threads =>
        match RegionWalk os.RegionQueries with
        | .ok Entities =>
          .built { Pid := dwPid, Name := Name, ImageFilePath := ImageFilePath, Wow64 := Wow64,
                   Heaps := os.ReadHeaps Wow64, Threads := Threads, Entities := Entities }
        | _ => .diverge
  else .thrown .OpenFailed

/-! ## Specification of the region walk -/

/-- The keys of a map, in its order. -/
def keys {β : Type} (m : List (Nat × β)) : List Nat := m.map Prod.fst

/-- The subregion is not free memory. -/
def nonFree (s : Subregion) : Prop := s.Basic.State ≠ MEM_FREE

instance (s : Subregion) : Decidable (nonFree s) := by
  unfold nonFree; infer_instance

/-- In the sequence of observed subregions no allocation base of a non-free
subregion comes back after a different allocation base has been observed in
between: all subregions between two of the same allocation base, the later one
not free, have that allocation base too. -/
def noReturn (observed : List Subregion) : Prop :=
  ∀ a1 x a2 s b, observed = a1 ++ x :: a2 ++ s :: b → nonFree s →
    x.Basic.AllocationBase = s.Basic.AllocationBase →
    ∀ y ∈ a2, y.Basic.AllocationBase = s.Basic.AllocationBase

/-- What the walk keeps true: the keys of the entity map are in strictly
ascending order, every entity is created from a group whose subregions all have
the key as allocation base, and the pending group shares the allocation base of
its first subregion. -/
def walkInv (st : WalkState) : Prop :=
  (keys st.Entities).Pairwise (· < ·) ∧
  (∀ p ∈ st.Entities, ∃ Region rest, p.2 = Entity.Create Region rest ∧
    ∀ s ∈ Region :: rest, s.Basic.AllocationBase = p.1) ∧
  (∀ Region rest, st.Subregions = Region :: rest →
    ∀ s ∈ rest, s.Basic.AllocationBase = Region.Basic.AllocationBase)

/-- No non-free subregion of the list has allocation base `X`. -/
def noLater (X : Nat) (l : List Subregion) : Bool :=
  l.all (fun s => !(decide (nonFree s) && decide (s.Basic.AllocationBase = X)))

/-- After a subregion of allocation base `X`: once a different allocation base
has been met, no non-free subregion of allocation base `X` follows. -/
def okAfter (X : Nat) : List Subregion → Bool
  | [] => true
  | y :: t => if y.Basic.AllocationBase = X then okAfter X t else noLater X t

/-- A check of `noReturn` that can be computed. -/
def noReturnCheck : List Subregion → Bool
  | [] => true
  | x :: t => okAfter x.Basic.AllocationBase t && noReturnCheck t

/-! ## Fixtures for the constructor -/

/-- A free region above the private region at `0x10000000`. -/
def freeSbr2 : Subregion :=
  { Basic := { BaseAddress := 0x10010000, AllocationBase := 0, AllocationProtect := 0,
               RegionSize := 0x10000, State := MEM_FREE, Protect := 1, MemType := 0 }
    Flags := 0, PrivateSize := 0 }

/-- A committed private region at `0x20000000` whose descriptor names the
allocation at `0x10000000` as its allocation base. -/
def lateSbr : Subregion :=
  { Basic := { BaseAddress := 0x20000000, AllocationBase := 0x10000000, AllocationProtect := 4,
               RegionSize := 0x1000, State := MEM_COMMIT, Protect := 4, MemType := MEM_PRIVATE }
    Flags := 0, PrivateSize := 0x1000 }

/-- A second committed page of the allocation at `0x30000000`. -/
def rwxSbr2 : Subregion :=
  { Basic := { BaseAddress := 0x30001000, AllocationBase := 0x30000000, AllocationProtect := 0x40,
               RegionSize := 0x1000, State := MEM_COMMIT, Protect := 2, MemType := MEM_PRIVATE }
    Flags := 0, PrivateSize := 0x1000 }

/-- A 64-bit target seen from an inspector that runs under Wow64: the handle
opens, `GetModuleBaseNameW` fails, both `IsWow64Process` queries would succeed
and tell the inspector is under Wow64 and the target is not. -/
def crossArchOs : OsAnswers :=
  { OpenProcess := true
    GetModuleBaseNameW := none
    GetProcessImageFileNameW := some "\\Device\\HarddiskVolume1\\a.exe".toList
    TranslateDevicePath := some "C:\\a.exe".toList
    IsWow64ProcessFound := true
    SelfWow64 := some true
    TargetWow64 := some false
    Wow64Unset := false
    ReadHeaps := fun _ => []
    ThreadSnap := some []
    NewThread := fun _ => none
    RegionQueries := [some heapSbr, none] }

/-! ## The thread loop of the constructor, with its calls -/

/-- The entries of the thread list for which line 185 evaluates
`new Thread(ThreadEntry.th32ThreadID, *this)`, in the order of the loop of lines
182-192: the entries owned by `Pid`, up to the first one whose thread record
cannot be made, where line 189 throws. -/
def threadCtorCalls (Pid : Nat) (NewThread : Nat → Option Thread) :
    List THREADENTRY32 → List THREADENTRY32
  | [] => []
  | ThreadEntry :: rest =>
    if ThreadEntry.th32OwnerProcessID = Pid then
      match NewThread ThreadEntry.th32ThreadID with
      | some _ => ThreadEntry :: threadCtorCalls Pid NewThread rest
      | none => [ThreadEntry]
    else threadCtorCalls Pid NewThread rest

/-- The entries of the thread list whose owner is the target process. -/
def ownedEntries (Pid : Nat) (entries : List THREADENTRY32) : List THREADENTRY32 :=
  entries.filter (fun e => decide (e.th32OwnerProcessID = Pid))

/-! ## `Process::DumpBlock` (lines 414-427) -/

/-- A run of `Process::DumpBlock`: the value returned, a `fault` when control
reaches the closing brace of the function without a `return`, and the region
descriptors `ProcDmp.Create` was called on. -/
structure DumpRun where
  result : Outcome Bool
  sinkCalls : List MEMORY_BASIC_INFORMATION
  deriving DecidableEq, Repr

/-- The function `Process::DumpBlock`.  `Create` tells whether
`ProcDmp.Create(Mbi, DumFilePath, MAX_PATH + 1)` succeeds (`MemDump` is not
part of the sources at hand).  The `if` of line 417 has no `else` and nothing
follows it. -/
def Process.DumpBlock (Create : MEMORY_BASIC_INFORMATION → Bool)
    (Mbi : MEMORY_BASIC_INFORMATION) : DumpRun :=
  if Mbi.State = MEM_COMMIT then
    if Create Mbi then { result := .ok true, sinkCalls := [Mbi] }
    else { result := .ok false, sinkCalls := [Mbi] }
  else { result := .fault, sinkCalls := [] }

/-- The descriptor of a reserved, not committed, private region. -/
def reservedMbi : MEMORY_BASIC_INFORMATION :=
  { BaseAddress := 0x10010000, AllocationBase := 0x10000000, AllocationProtect := 4,
    RegionSize := 0xf0000, State := MEM_RESERVE, Protect := 0, MemType := MEM_PRIVATE }

/-! ## `AlignName` (lines 235-252) -/

/-- The call `wcsncpy_s(dest, destsz, src, count)` of the secure C runtime:
at most `count` characters of the C string `src` are copied and terminated;
`none` when they do not fit with their terminator in `destsz` characters (the
invalid parameter handler is invoked). -/
def wcsncpy_s (destsz : Nat) (src : List Char) (count : Nat) : Option (List Char) :=
  if ((cstr src).take count).length < destsz then some ((cstr src).take count) else none

/-- The call `wcscpy_s(dest, destsz, src)`: the C string `src` is copied; `none`
when it does not fit with its terminator in `destsz` characters. -/
def wcscpy_s (destsz : Nat) (src : List Char) : Option (List Char) :=
  if (cstr src).length < destsz then some (cstr src) else none

/-- The call `wcscat_s(dest, destsz, src)`: the C string `src` is appended to
the C string in `dest`; `none` when the result does not fit with its terminator
in `destsz` characters. -/
def wcscat_s (dest : List Char) (destsz : Nat) (src : List Char) : Option (List Char) :=
  if (cstr dest).length + (cstr src).length < destsz then some (cstr dest ++ cstr src)
  else none

/-- The space character of the literal `L" "`. -/
def blank : Char := Char.ofNat 32

/-- The loops of lines 241-243 and 248-250: one `wcscat_s` of a space for each
of the `k` values `nX` takes from its start up to `nAlignTo - 1`. -/
def alignLoop (destsz : Nat) : Nat → List Char → Option (List Char)
  | 0, pAlignedName => some pAlignedName
  | k + 1, pAlignedName =>
    match wcscat_s pAlignedName destsz " ".toList with
    | none => none
    | some pAlignedName1 => alignLoop destsz k pAlignedName1

/-- The function `AlignName`: the string left in `pAlignedName`, a buffer of
`nAlignTo + 1` characters; `none` when one of the two assertions of lines
236-237 fails or a call of the secure C runtime is refused. -/
def AlignName (pOriginalName : List Char) (nAlignTo : Int) : Option (List Char) :=
  if nAlignTo ≥ 1 ∧ (wcslen pOriginalName : Int) ≤ nAlignTo then
    if wcslen pOriginalName ≠ 0 then
      match wcsncpy_s (nAlignTo + 1).toNat pOriginalName nAlignTo.toNat with
      | none => none
      | some pAlignedName =>
        alignLoop (nAlignTo + 1).toNat (nAlignTo.toNat - wcslen pAlignedName) pAlignedName
    else
      match wcscpy_s (nAlignTo + 1).toNat " ".toList with
      | none => none
      | some pAlignedName => alignLoop (nAlignTo + 1).toNat (nAlignTo.toNat - 1) pAlignedName
  else none

/-- The attribute descriptor as `Process::Enumerate` renders it at lines
593-595: `AlignName(Subregion::AttribDesc(...), AlignedAttribDesc, 8)`, where
`AttribDesc` is the string `Subregion::AttribDesc` returns (`Memory.cpp` is not
part of the sources at hand). -/
def AlignedAttribDesc (AttribDesc : List Char) : Option (List Char) :=
  AlignName AttribDesc 8

/-! ## The offset of the extension comparison -/

/-- The pointer `c_str() + off` lies in the buffer of the path, between its
first character and its terminating null. -/
def offsetInPath (Path : List Char) (off : Int) : Prop :=
  0 ≤ off ∧ off ≤ (Path.length : Int)

instance (Path : List Char) (off : Int) : Decidable (offsetInPath Path off) := by
  unfold offsetInPath; infer_instance

/-- The suspicion is of kind `XPRV`. -/
def isXPRV (t : Nat × Nat × Suspicion) : Bool := decide (t.2.2.SuspType = .XPRV)

/-! ## Fixtures for the thread loop -/

/-- A thread list with two threads of process 4242 around one of process 7. -/
def threadList : List THREADENTRY32 :=
  [{ th32ThreadID := 100, th32OwnerProcessID := 4242 },
   { th32ThreadID := 200, th32OwnerProcessID := 7 },
   { th32ThreadID := 300, th32OwnerProcessID := 4242 }]

/-- Answers of the operating system for a native target seen from a native
inspector: every query succeeds, the thread records of threads 100 and 300 can
be made, the one of thread 200 cannot. -/
def nativeOs : OsAnswers :=
  { OpenProcess := true
    GetModuleBaseNameW := some "a.exe".toList
    GetProcessImageFileNameW := some "\\Device\\HarddiskVolume1\\a.exe".toList
    TranslateDevicePath := some "C:\\a.exe".toList
    IsWow64ProcessFound := true
    SelfWow64 := some false
    TargetWow64 := some false
    Wow64Unset := false
    ReadHeaps := fun _ => [0x10000000]
    ThreadSnap := some threadList
    NewThread := fun tid =>
      if tid = 200 then none else some { Tid := tid, EntryPoint := 0x30000000 }
    RegionQueries := [some heapSbr, none] }

/-! ## Snapshots and the rule catalog -/

/-- Modelled from the spec: `Suspicion::InspectEntity` is defined in
`Suspicions.cpp`, which is not part of the sources at hand.  After the rule
catalog of §4.5 every rule triggers on a private subregion, on a mapped
subregion or on an image, and after §4.3 the kind of an allocation is decided
by the type of its first subregion.  So an entity with an entry in the
suspicion map is an allocation of private, mapped or image memory: its first
subregion has one of these three types.  Free memory, of no type, has no
entry. -/
def catalogConform (P : Process) (M : SuspicionsMap) : Prop :=
  ∀ p ∈ P.Entities, hasEntry M p.2 →
    p.2.front.Basic.MemType = MEM_PRIVATE ∨ p.2.front.Basic.MemType = MEM_MAPPED ∨
      p.2.front.Basic.MemType = MEM_IMAGE

instance (P : Process) (M : SuspicionsMap) : Decidable (catalogConform P M) := by
  unfold catalogConform; infer_instance

/-- Answers of the operating system for a target whose address space holds the
free region at 0, the view of a mapped section at `0x20000000` and two pages of
a private allocation at `0x30000000`. -/
def snapshotOs : OsAnswers :=
  { nativeOs with
    RegionQueries := [some freeSbr, some sharedSbr, some rwxSbr, some rwxSbr2, none] }

/-- The process the constructor builds from `snapshotOs`. -/
def snapshotProcess : Process :=
  { Pid := 4242, Name := "a.exe".toList, ImageFilePath := "C:\\a.exe".toList, Wow64 := false,
    Heaps := [0x10000000],
    Threads := [{ Tid := 100, EntryPoint := 0x30000000 }, { Tid := 300, EntryPoint := 0x30000000 }],
    Entities := [(0, Entity.Create freeSbr []), (0x20000000, Entity.Create sharedSbr []),
                 (0x30000000, Entity.Create rwxSbr [rwxSbr2])] }

/-- A suspicion map with a subregion-scope `XMAP` finding on the view at
`0x20000000` and a subregion-scope `XPRV` finding on the first page of the
allocation at `0x30000000`. -/
def snapshotMap : SuspicionsMap := sharedMap ++ rwxMap

/-! ## Theorems on `FilterSuspicions` -/

theorem walkList_erased_length (l l1 : List Suspicion) (h : walkList l = .stale l1) :
    l1.length + 1 = l.length := by
  induction l generalizing l1 with
  | nil => simp [walkList] at h
  | cons s rest ih =>
    simp only [walkList] at h
    split at h
    · cases h
    · cases h; simp
    · split at h
      · cases h
      · cases h
      · rename_i r hr
        cases h
        simp [ih r hr]

theorem walkSbMap_erased_count (m m1 : SbMap) (h : walkSbMap m = .stale m1) :
    sbCount m1 + 1 = sbCount m := by
  induction m generalizing m1 with
  | nil => simp [walkSbMap] at h
  | cons e rest ih =>
    obtain ⟨k, l⟩ := e
    simp only [walkSbMap] at h
    split at h
    · cases h
    · rename_i l1 hl
      have hlen := walkList_erased_length l l1 hl
      split at h
      · cases h
        simp only [sbCount, List.map_cons, List.sum_cons]
        omega
      · cases h
        simp only [sbCount, List.map_cons, List.sum_cons]
        omega
    · split at h
      · cases h
      · cases h
      · rename_i r hr
        cases h
        have := ih r hr
        simp only [sbCount, List.map_cons, List.sum_cons] at this ⊢
        omega

theorem walkMap_erased_count (M M1 : SuspicionsMap) (h : walkMap M = .stale M1) :
    suspicionCount M1 + 1 = suspicionCount M := by
  induction M generalizing M1 with
  | nil => simp [walkMap] at h
  | cons e rest ih =>
    obtain ⟨k, sb⟩ := e
    simp only [walkMap] at h
    split at h
    · cases h
    · rename_i sb1 hsb
      have hc := walkSbMap_erased_count sb sb1 hsb
      split at h
      · rename_i h0
        cases h
        have : sb1 = [] := List.length_eq_zero.mp h0
        subst this
        simp only [suspicionCount, List.map_cons, List.sum_cons]
        simp only [sbCount, List.map_nil, List.sum_nil] at hc ⊢
        omega
      · cases h
        simp only [suspicionCount, List.map_cons, List.sum_cons]
        omega
    · split at h
      · cases h
      · cases h
      · rename_i r hr
        cases h
        have := ih r hr
        simp only [suspicionCount, List.map_cons, List.sum_cons] at this ⊢
        omega


theorem char_eq_of_toNat_eq (c d : Char) (h : c.toNat = d.toNat) : c = d := by
  have := congrArg Char.ofNat h
  simpa using this

theorem towlower_toNat_ne_zero (c : Char) (h : c.toNat ≠ 0) : (towlower c).toNat ≠ 0 := by
  unfold towlower
  split
  · rename_i hc
    obtain ⟨h1, h2⟩ := hc
    generalize c.toNat = n at h1 h2
    interval_cases n <;> decide
  · exact h

theorem wcsicmp_eq_zero (a b : List Char) (ha : ∀ c ∈ a, c.toNat ≠ 0)
    (hb : ∀ c ∈ b, c.toNat ≠ 0) :
    wcsicmp a b = 0 ↔ a.map towlower = b.map towlower := by
  induction a generalizing b with
  | nil =>
    cases b with
    | nil => simp [wcsicmp]
    | cons y ys =>
      have := towlower_toNat_ne_zero y (hb y (by simp))
      simp only [wcsicmp, List.map_nil, List.map_cons]
      constructor
      · intro h; omega
      · intro h; cases h
  | cons x xs ih =>
    cases b with
    | nil =>
      have := towlower_toNat_ne_zero x (ha x (by simp))
      simp only [wcsicmp, List.map_nil, List.map_cons]
      constructor
      · intro h; omega
      · intro h; cases h
    | cons y ys =>
      simp only [wcsicmp, List.map_cons, List.cons.injEq]
      split
      · rename_i hxy
        rw [ih ys (fun c hc => ha c (by simp [hc])) (fun c hc => hb c (by simp [hc]))]
        simp [hxy]
      · rename_i hxy
        constructor
        · intro h
          exact absurd (char_eq_of_toNat_eq _ _ (by omega)) hxy
        · intro h; exact absurd h.1 hxy

theorem wcslen_pWinmbExt : wcslen pWinmbExt = 6 := by decide

theorem cstr_pWinmbExt : cstr pWinmbExt = pWinmbExt := by decide

theorem winmdOffset_neg_iff (Path : List Char) : winmdOffset Path < 0 ↔ Path.length < 6 := by
  unfold winmdOffset
  rw [wcslen_pWinmbExt]
  omega

theorem winmdCompare_eq_none_iff (Path : List Char) :
    winmdCompare Path = none ↔ Path.length < 6 := by
  unfold winmdCompare
  split
  · rename_i h
    simpa using (winmdOffset_neg_iff Path).mp h
  · rename_i h
    simp only [false_iff, reduceCtorEq]
    intro h6
    exact h ((winmdOffset_neg_iff Path).mpr h6)

theorem toNat_ne_zero_of_towlower (c : Char) (h : (towlower c).toNat ≠ 0) : c.toNat ≠ 0 := by
  intro h0
  apply h
  unfold towlower
  rw [if_neg (by omega)]
  exact h0

theorem cstr_eq_self (x : List Char) (h : ∀ c ∈ x, c.toNat ≠ 0) : cstr x = x := by
  unfold cstr
  rw [List.takeWhile_eq_self_iff]
  intro c hc
  simpa using h c hc

theorem cstr_eq_of_length (x : List Char) (h : (cstr x).length = x.length) : cstr x = x := by
  have hp : cstr x <+: x := List.takeWhile_prefix _
  exact hp.eq_of_length h

theorem cstr_ne_zero (x : List Char) : ∀ c ∈ cstr x, c.toNat ≠ 0 := by
  intro c hc
  have := List.mem_takeWhile_imp hc
  simpa using this

theorem winmdCompare_zero_iff (Path : List Char) (h6 : 6 ≤ Path.length) :
    ∃ c, winmdCompare Path = some c ∧ (c = 0 ↔ endsWithNoCase Path ".winmd".toList) := by
  have hoff : ¬ winmdOffset Path < 0 := by
    rw [winmdOffset_neg_iff]; omega
  have hnat : (winmdOffset Path).toNat = Path.length - 6 := by
    unfold winmdOffset
    rw [wcslen_pWinmbExt]
    omega
  refine ⟨_, by unfold winmdCompare; rw [if_neg hoff], ?_⟩
  rw [hnat, cstr_pWinmbExt]
  have hext : pWinmbExt.map towlower = pWinmbExt := by decide
  have hext0 : ∀ c ∈ pWinmbExt, c.toNat ≠ 0 := by decide
  have hextlen : pWinmbExt.length = 6 := by decide
  rw [wcsicmp_eq_zero _ _ (cstr_ne_zero _) hext0, hext]
  have hxlen : (Path.drop (Path.length - 6)).length = 6 := by
    rw [List.length_drop]; omega
  unfold endsWithNoCase
  change _ ↔ pWinmbExt.map towlower <:+ Path.map towlower
  rw [hext]
  constructor
  · intro h
    have hl : (cstr (Path.drop (Path.length - 6))).length = (Path.drop (Path.length - 6)).length := by
      have := congrArg List.length h
      rw [List.length_map] at this
      rw [this, hextlen, hxlen]
    rw [cstr_eq_of_length _ hl] at h
    refine ⟨(Path.take (Path.length - 6)).map towlower, ?_⟩
    rw [← h, ← List.map_append, List.take_append_drop]
  · rintro ⟨pre, hpre⟩
    have hd : (Path.drop (Path.length - 6)).map towlower = pWinmbExt := by
      rw [List.map_drop, ← hpre]
      have hlen : pre.length = Path.length - 6 := by
        have := congrArg List.length hpre
        rw [List.length_append, List.length_map, hextlen] at this
        omega
      rw [← hlen, List.drop_left]
    have hnz : ∀ c ∈ Path.drop (Path.length - 6), c.toNat ≠ 0 := by
      intro c hc
      apply toNat_ne_zero_of_towlower
      apply hext0
      rw [← hd]
      exact List.mem_map_of_mem _ hc
    rw [cstr_eq_self _ hnz, hd]

theorem filterCase_eq_none_iff (s : Suspicion) : filterCase s = none ↔ ¬ examinable s := by
  unfold filterCase examinable
  cases hT : s.SuspType <;> simp only [reduceCtorEq, false_implies, not_true_eq_false, forall_const]
  cases hP : s.Parent with
  | none => simp
  | some pe =>
    simp only [Option.some.injEq, exists_eq_left']
    cases hS : pe.Signed with
    | false => simp
    | true =>
      simp only [if_true, forall_const, not_le]
      rw [← winmdCompare_eq_none_iff]
      cases hc : winmdCompare pe.Path with
      | none => simp
      | some c =>
        simp only [reduceCtorEq, iff_false]
        split
        · split <;> simp
        · simp

theorem filterCase_eq_some (s : Suspicion) (b : Bool) (h : filterCase s = some b) :
    droppable s = b := by
  by_cases hT : s.SuspType = .MISSING_PEB_MODULE
  · unfold filterCase at h
    unfold droppable
    rw [hT] at h
    simp only [hT, decide_True, Bool.true_and] at h ⊢
    cases hP : s.Parent with
    | none => rw [hP] at h; cases h
    | some pe =>
      rw [hP] at h
      simp only at h ⊢
      cases hS : pe.Signed with
      | false => rw [hS] at h; simpa using h
      | true =>
        rw [hS] at h
        simp only [if_true] at h
        by_cases h6 : 6 ≤ pe.Path.length
        · obtain ⟨c, hc, hiff⟩ := winmdCompare_zero_iff pe.Path h6
          rw [hc] at h
          simp only at h
          by_cases hc0 : c = 0
          · rw [if_pos hc0] at h
            have he := hiff.mp hc0
            cases hPe : pe.Pe with
            | none => rw [hPe] at h; simpa using h
            | some ep =>
              rw [hPe] at h
              simp only [Option.some.injEq] at h
              generalize ".winmd".toList = ext at he ⊢
              simp only [he, ← h, Option.some.injEq, decide_True, Bool.true_and]
              by_cases hep : ep = 0 <;> simp [hep]
          · rw [if_neg hc0] at h
            have he : ¬ endsWithNoCase pe.Path ".winmd".toList := fun x => hc0 (hiff.mpr x)
            generalize ".winmd".toList = ext at he ⊢
            simp [he, ← Option.some.inj h]
        · have := (winmdCompare_eq_none_iff pe.Path).mpr (by omega)
          rw [this] at h
          cases h
  · have hd : droppable s = false := by
      unfold droppable
      simp [hT]
    rw [hd]
    unfold filterCase at h
    cases hT2 : s.SuspType <;> rw [hT2] at h <;>
      first
        | exact absurd hT2 hT
        | (simp only [Bool.and_false, Option.some.injEq] at h; exact h)

theorem walkList_clean (l : List Suspicion) (h : walkList l = .clean) :
    ∀ s ∈ l, filterCase s = some false := by
  induction l with
  | nil => simp
  | cons s rest ih =>
    simp only [walkList] at h
    split at h
    · cases h
    · cases h
    · rename_i hs
      split at h
      · cases h
      · rename_i hr
        intro x hx
        rcases List.mem_cons.mp hx with rfl | hx
        · exact hs
        · exact ih hr x hx
      · cases h

theorem walkList_fault (l : List Suspicion) (h : walkList l = .fault) :
    ∃ s ∈ l, filterCase s = none := by
  induction l with
  | nil => simp [walkList] at h
  | cons s rest ih =>
    simp only [walkList] at h
    split at h
    · rename_i hs
      exact ⟨s, by simp, hs⟩
    · cases h
    · split at h
      · rename_i hr
        obtain ⟨x, hx, hxn⟩ := ih hr
        exact ⟨x, by simp [hx], hxn⟩
      · cases h
      · cases h

theorem walkList_erased (l l1 : List Suspicion) (h : walkList l = .stale l1) :
    ∃ a s b, l = a ++ s :: b ∧ l1 = a ++ b ∧ (∀ x ∈ a, filterCase x = some false) ∧
      filterCase s = some true := by
  induction l generalizing l1 with
  | nil => simp [walkList] at h
  | cons s rest ih =>
    simp only [walkList] at h
    split at h
    · cases h
    · rename_i hs
      cases h
      exact ⟨[], s, rest, rfl, rfl, by simp, hs⟩
    · rename_i hs
      split at h
      · cases h
      · cases h
      · rename_i r hr
        cases h
        obtain ⟨a, t, b, h1, h2, h3, h4⟩ := ih r hr
        refine ⟨s :: a, t, b, by simp [h1], by simp [h2], ?_, h4⟩
        intro x hx
        rcases List.mem_cons.mp hx with rfl | hx
        · exact hs
        · exact h3 x hx

theorem sbEntries_cons (ab : Nat) (e : Nat × List Suspicion) (m : SbMap) :
    sbEntries ab (e :: m) = e.2.map (fun s => (ab, e.1, s)) ++ sbEntries ab m := by
  simp [sbEntries, List.flatMap_cons]

theorem entries_cons (e : Nat × SbMap) (M : SuspicionsMap) :
    entries (e :: M) = sbEntries e.1 e.2 ++ entries M := by
  simp [entries, List.flatMap_cons]

theorem walkSbMap_clean (ab : Nat) (m : SbMap) (h : walkSbMap m = .clean) :
    ∀ t ∈ sbEntries ab m, filterCase t.2.2 = some false := by
  induction m with
  | nil => simp [sbEntries]
  | cons e rest ih =>
    obtain ⟨k, l⟩ := e
    simp only [walkSbMap] at h
    split at h
    · cases h
    · split at h <;> cases h
    · rename_i hl
      split at h
      · cases h
      · rename_i hr
        intro t ht
        rw [sbEntries_cons] at ht
        rcases List.mem_append.mp ht with ht | ht
        · obtain ⟨s, hs, rfl⟩ := List.mem_map.mp ht
          exact walkList_clean l hl s hs
        · exact ih hr t ht
      · cases h

theorem walkSbMap_fault (ab : Nat) (m : SbMap) (h : walkSbMap m = .fault) :
    ∃ t ∈ sbEntries ab m, filterCase t.2.2 = none := by
  induction m with
  | nil => simp [walkSbMap] at h
  | cons e rest ih =>
    obtain ⟨k, l⟩ := e
    simp only [walkSbMap] at h
    split at h
    · rename_i hl
      obtain ⟨s, hs, hsn⟩ := walkList_fault l hl
      refine ⟨(ab, k, s), ?_, hsn⟩
      rw [sbEntries_cons]
      exact List.mem_append_left _ (List.mem_map_of_mem _ hs)
    · split at h <;> cases h
    · split at h
      · rename_i hr
        obtain ⟨t, ht, htn⟩ := ih hr
        refine ⟨t, ?_, htn⟩
        rw [sbEntries_cons]
        exact List.mem_append_right _ ht
      · cases h
      · cases h

theorem walkSbMap_erased (ab : Nat) (m m1 : SbMap) (h : walkSbMap m = .stale m1) :
    ∃ a t b, sbEntries ab m = a ++ t :: b ∧ sbEntries ab m1 = a ++ b ∧
      (∀ x ∈ a, filterCase x.2.2 = some false) ∧ filterCase t.2.2 = some true := by
  induction m generalizing m1 with
  | nil => simp [walkSbMap] at h
  | cons e rest ih =>
    obtain ⟨k, l⟩ := e
    simp only [walkSbMap] at h
    split at h
    · cases h
    · rename_i l1 hl
      obtain ⟨a, s, b, h1, h2, h3, h4⟩ := walkList_erased l l1 hl
      have hmem : ∀ x ∈ a.map (fun s => (ab, k, s)), filterCase x.2.2 = some false := by
        intro x hx
        obtain ⟨y, hy, rfl⟩ := List.mem_map.mp hx
        exact h3 y hy
      split at h
      · rename_i h0
        cases h
        have hl1 : l1 = [] := List.length_eq_zero.mp h0
        rw [hl1] at h2
        have ha : a = [] := (List.append_eq_nil.mp h2.symm).1
        have hb : b = [] := (List.append_eq_nil.mp h2.symm).2
        subst ha hb
        refine ⟨[], (ab, k, s), sbEntries ab rest, ?_, by simp, by simp, h4⟩
        rw [sbEntries_cons, h1]
        simp
      · cases h
        refine ⟨a.map (fun s => (ab, k, s)), (ab, k, s),
          b.map (fun s => (ab, k, s)) ++ sbEntries ab rest, ?_, ?_, hmem, h4⟩
        · rw [sbEntries_cons, h1]
          simp
        · rw [sbEntries_cons, h2]
          simp
    · rename_i hl
      split at h
      · cases h
      · cases h
      · rename_i r hr
        cases h
        obtain ⟨a, t, b, h1, h2, h3, h4⟩ := ih r hr
        refine ⟨l.map (fun s => (ab, k, s)) ++ a, t, b, ?_, ?_, ?_, h4⟩
        · rw [sbEntries_cons, h1]; simp
        · rw [sbEntries_cons, h2]; simp
        · intro x hx
          rcases List.mem_append.mp hx with hx | hx
          · obtain ⟨y, hy, rfl⟩ := List.mem_map.mp hx
            exact walkList_clean l hl y hy
          · exact h3 x hx

theorem walkMap_clean (M : SuspicionsMap) (h : walkMap M = .clean) :
    ∀ t ∈ entries M, filterCase t.2.2 = some false := by
  induction M with
  | nil => simp [entries]
  | cons e rest ih =>
    obtain ⟨k, sb⟩ := e
    simp only [walkMap] at h
    split at h
    · cases h
    · split at h <;> cases h
    · rename_i hsb
      split at h
      · cases h
      · rename_i hr
        intro t ht
        rw [entries_cons] at ht
        rcases List.mem_append.mp ht with ht | ht
        · exact walkSbMap_clean k sb hsb t ht
        · exact ih hr t ht
      · cases h

theorem walkMap_fault (M : SuspicionsMap) (h : walkMap M = .fault) :
    ∃ t ∈ entries M, filterCase t.2.2 = none := by
  induction M with
  | nil => simp [walkMap] at h
  | cons e rest ih =>
    obtain ⟨k, sb⟩ := e
    simp only [walkMap] at h
    split at h
    · rename_i hsb
      obtain ⟨t, ht, htn⟩ := walkSbMap_fault k sb hsb
      refine ⟨t, ?_, htn⟩
      rw [entries_cons]
      exact List.mem_append_left _ ht
    · split at h <;> cases h
    · split at h
      · rename_i hr
        obtain ⟨t, ht, htn⟩ := ih hr
        refine ⟨t, ?_, htn⟩
        rw [entries_cons]
        exact List.mem_append_right _ ht
      · cases h
      · cases h

theorem walkMap_erased (M M1 : SuspicionsMap) (h : walkMap M = .stale M1) :
    ∃ a t b, entries M = a ++ t :: b ∧ entries M1 = a ++ b ∧
      (∀ x ∈ a, filterCase x.2.2 = some false) ∧ filterCase t.2.2 = some true := by
  induction M generalizing M1 with
  | nil => simp [walkMap] at h
  | cons e rest ih =>
    obtain ⟨k, sb⟩ := e
    simp only [walkMap] at h
    split at h
    · cases h
    · rename_i sb1 hsb
      obtain ⟨a, t, b, h1, h2, h3, h4⟩ := walkSbMap_erased k sb sb1 hsb
      split at h
      · rename_i h0
        cases h
        have hsb1 : sb1 = [] := List.length_eq_zero.mp h0
        rw [hsb1] at h2
        have hab : a ++ b = [] := by simpa [sbEntries] using h2.symm
        have ha : a = [] := (List.append_eq_nil.mp hab).1
        have hb : b = [] := (List.append_eq_nil.mp hab).2
        subst ha hb
        refine ⟨[], t, entries rest, ?_, by simp, by simp, h4⟩
        rw [entries_cons, h1]
        simp
      · cases h
        refine ⟨a, t, b ++ entries rest, ?_, ?_, h3, h4⟩
        · rw [entries_cons, h1]; simp
        · rw [entries_cons, h2]; simp
    · rename_i hsb
      split at h
      · cases h
      · cases h
      · rename_i r hr
        cases h
        obtain ⟨a, t, b, h1, h2, h3, h4⟩ := ih r hr
        refine ⟨sbEntries k sb ++ a, t, b, ?_, ?_, ?_, h4⟩
        · rw [entries_cons, h1]; simp
        · rw [entries_cons, h2]; simp
        · intro x hx
          rcases List.mem_append.mp hx with hx | hx
          · exact walkSbMap_clean k sb hsb x hx
          · exact h3 x hx

theorem Outcome.map_eq_ok {α β : Type} (f : α → β) (o : Outcome α) (b : β)
    (h : o.map f = .ok b) : ∃ a, o = .ok a ∧ f a = b := by
  cases o with
  | ok a => exact ⟨a, rfl, by simpa [Outcome.map] using h⟩
  | fault => simp [Outcome.map] at h
  | diverge => simp [Outcome.map] at h



theorem walkSbMap_erased_emptyFree (m m1 : SbMap) (h : walkSbMap m = .stale m1)
    (hm : sbEmptyFree m) : sbEmptyFree m1 := by
  induction m generalizing m1 with
  | nil => simp [walkSbMap] at h
  | cons e rest ih =>
    obtain ⟨k, l⟩ := e
    have hrest : sbEmptyFree rest := fun x hx => hm x (List.mem_cons_of_mem _ hx)
    simp only [walkSbMap] at h
    split at h
    · cases h
    · rename_i l1 hl
      split at h
      · cases h; exact hrest
      · rename_i h0
        cases h
        intro x hx
        rcases List.mem_cons.mp hx with rfl | hx
        · intro hnil
          exact h0 (by simp only at hnil; rw [hnil]; rfl)
        · exact hrest x hx
    · split at h
      · cases h
      · cases h
      · rename_i r hr
        cases h
        intro x hx
        rcases List.mem_cons.mp hx with rfl | hx
        · exact hm _ (by simp)
        · exact ih r hr hrest x hx

theorem walkMap_erased_emptyFree (M M1 : SuspicionsMap) (h : walkMap M = .stale M1)
    (hM : emptyFree M) : emptyFree M1 := by
  induction M generalizing M1 with
  | nil => simp [walkMap] at h
  | cons e rest ih =>
    obtain ⟨k, sb⟩ := e
    have hrest : emptyFree rest := fun x hx => hM x (List.mem_cons_of_mem _ hx)
    simp only [walkMap] at h
    split at h
    · cases h
    · rename_i sb1 hsb
      split at h
      · cases h; exact hrest
      · rename_i h0
        cases h
        intro x hx
        rcases List.mem_cons.mp hx with rfl | hx
        · refine ⟨?_, walkSbMap_erased_emptyFree sb sb1 hsb (hM (k, sb) (by simp)).2⟩
          intro hnil
          exact h0 (by simp only at hnil; rw [hnil]; rfl)
        · exact hrest x hx
    · split at h
      · cases h
      · cases h
      · rename_i r hr
        cases h
        intro x hx
        rcases List.mem_cons.mp hx with rfl | hx
        · exact hM _ (by simp)
        · exact ih r hr hrest x hx


theorem endsWithNoCase_length (Path ext : List Char) (h : endsWithNoCase Path ext) :
    ext.length ≤ Path.length := by
  have := List.IsSuffix.length_le h
  simpa using this

theorem filterCase_of_droppable (s : Suspicion) (h : droppable s = true) :
    filterCase s = some true := by
  have hex : examinable s := by
    intro _
    unfold droppable at h
    cases hP : s.Parent with
    | none => rw [hP] at h; simp at h
    | some pe =>
      rw [hP] at h
      simp only [Bool.and_eq_true, decide_eq_true_eq] at h
      refine ⟨pe, rfl, fun _ => ?_⟩
      exact endsWithNoCase_length _ _ h.2.1.2
  cases hfc : filterCase s with
  | none => exact absurd hex ((filterCase_eq_none_iff s).mp hfc)
  | some b =>
    have := filterCase_eq_some s b hfc
    rw [h] at this
    rw [← this]

/-- The `switch` leaves a suspicion alone exactly when it can examine it and
the suspicion is not droppable. -/
theorem filterCase_false_iff (s : Suspicion) :
    filterCase s = some false ↔ examinable s ∧ droppable s = false := by
  constructor
  · intro h
    refine ⟨?_, filterCase_eq_some s false h⟩
    by_contra hne
    rw [(filterCase_eq_none_iff s).mpr hne] at h
    cases h
  · rintro ⟨hex, hd⟩
    cases hfc : filterCase s with
    | none => exact absurd hex ((filterCase_eq_none_iff s).mp hfc)
    | some b =>
      have := filterCase_eq_some s b hfc
      rw [hd] at this
      rw [← this]

/-- A walk leaves `bReWalkMap` false exactly when the `switch` leaves every
suspicion of the map alone. -/
theorem walkMap_clean_iff (M : SuspicionsMap) :
    walkMap M = .clean ↔ ∀ t ∈ entries M, filterCase t.2.2 = some false := by
  constructor
  · exact walkMap_clean M
  · intro h
    cases hw : walkMap M with
    | clean => rfl
    | fault =>
      obtain ⟨t, ht, htn⟩ := walkMap_fault M hw
      rw [h t ht] at htn
      cases htn
    | stale M1 =>
      obtain ⟨a, t, b, h1, _, _, h4⟩ := walkMap_erased M M1 hw
      rw [h t (by rw [h1]; simp)] at h4
      cases h4

/-- A run ends regularly exactly when its first walk erases nothing; it then
leaves the map as it was, after one walk. -/
theorem FilterSuspicionsRun_ok_iff (M M1 : SuspicionsMap) (w : Nat) :
    FilterSuspicionsRun M = .ok (M1, w) ↔ walkMap M = .clean ∧ M1 = M ∧ w = 1 := by
  unfold FilterSuspicionsRun
  cases hw : walkMap M with
  | clean =>
    simp only [Outcome.ok.injEq, Prod.mk.injEq, true_and]
    constructor
    · rintro ⟨h1, h2⟩; exact ⟨h1.symm, h2.symm⟩
    · rintro ⟨h1, h2⟩; exact ⟨h1.symm, h2.symm⟩
  | fault => simp
  | stale M2 => simp

theorem FilterSuspicionsRun_ne_diverge (M : SuspicionsMap) :
    FilterSuspicionsRun M ≠ .diverge := by
  unfold FilterSuspicionsRun
  cases walkMap M <;> simp

theorem FilterSuspicions_ok_inv (M M1 : SuspicionsMap) (h : FilterSuspicions M = .ok M1) :
    ∃ w, FilterSuspicionsRun M = .ok (M1, w) := by
  unfold FilterSuspicions at h
  obtain ⟨⟨M2, w⟩, h1, h2⟩ := Outcome.map_eq_ok _ _ _ h
  exact ⟨w, by rw [h1]; simp only at h2; rw [h2]⟩

/-- The filter returns a map exactly when it can examine every suspicion and
none is droppable; it returns the map it was given. -/
theorem FilterSuspicions_ok_iff (M M1 : SuspicionsMap) :
    FilterSuspicions M = .ok M1 ↔
      M1 = M ∧ ∀ t ∈ entries M, examinable t.2.2 ∧ droppable t.2.2 = false := by
  constructor
  · intro h
    obtain ⟨w, hw⟩ := FilterSuspicions_ok_inv M M1 h
    obtain ⟨hc, hM, _⟩ := (FilterSuspicionsRun_ok_iff M M1 w).mp hw
    refine ⟨hM, fun t ht => (filterCase_false_iff _).mp ((walkMap_clean_iff M).mp hc t ht)⟩
  · rintro ⟨rfl, h⟩
    have hc : walkMap M1 = .clean :=
      (walkMap_clean_iff M1).mpr (fun t ht => (filterCase_false_iff _).mpr (h t ht))
    unfold FilterSuspicions
    rw [(FilterSuspicionsRun_ok_iff M1 M1 1).mpr ⟨hc, rfl, rfl⟩]
    rfl

/-- The filter reaches undefined behaviour exactly on the maps that hold a
suspicion it cannot examine or a suspicion it erases. -/
theorem FilterSuspicions_fault_iff (M : SuspicionsMap) :
    FilterSuspicions M = .fault ↔
      ∃ t ∈ entries M, ¬ examinable t.2.2 ∨ droppable t.2.2 = true := by
  have hcases : FilterSuspicions M = .fault ↔ walkMap M ≠ .clean := by
    unfold FilterSuspicions FilterSuspicionsRun
    cases walkMap M <;> simp [Outcome.map]
  rw [hcases, Ne, walkMap_clean_iff]
  constructor
  · intro h
    by_contra hne
    apply h
    intro t ht
    rw [filterCase_false_iff]
    refine ⟨?_, ?_⟩
    · by_contra hex
      exact hne ⟨t, ht, Or.inl hex⟩
    · cases hd : droppable t.2.2 with
      | false => rfl
      | true => exact absurd ⟨t, ht, Or.inr hd⟩ hne
  · rintro ⟨t, ht, hbad⟩ hall
    have := (filterCase_false_iff _).mp (hall t ht)
    rcases hbad with hbad | hbad
    · exact hbad this.1
    · rw [this.2] at hbad
      cases hbad

/-- Every map that holds a droppable suspicion makes `FilterSuspicions` reach
undefined behaviour. -/
theorem FilterSuspicions_fault_of_droppable (M : SuspicionsMap) (ab sb : Nat) (s : Suspicion)
    (hmem : (ab, sb, s) ∈ entries M) (hd : droppable s = true) :
    FilterSuspicions M = .fault :=
  (FilterSuspicions_fault_iff M).mpr ⟨(ab, sb, s), hmem, Or.inr hd⟩

/-- On the path `C:\ab` the comparison of line 326 starts one character before
the buffer of the path, and the filter reaches undefined behaviour while it
examines the suspicion. -/
theorem FilterSuspicions_short_path_fault :
    droppable shortPathSuspicion = false ∧
    winmdOffset shortPathImage.Path = -1 ∧
    FilterSuspicions [(0x50000000, [(0x50000000, [shortPathSuspicion])])] = .fault := by
  decide

/-- A map without droppable findings, all of them examinable, is returned as it
is. -/
theorem FilterSuspicions_plainMap : FilterSuspicions plainMap = .ok plainMap := by
  decide

/-! ## Claims on `FilterSuspicions` -/

/-- C1 (the code departs from it): the claim asks that the map of scenario 4,
whose only suspicion is droppable, be filtered to the empty map.  The code
erases the suspicion, then the entry of its list and the entry of its entity
(lines 329-339), which leaves the map empty, and then increments the three
erased iterators in the headers of lines 289, 285 and 276: undefined
behaviour, and no empty map is returned. -/
theorem FilterSuspicions_scenario4_fault :
    droppable winmdSuspicion = true ∧
    walkMap scenario4Map = .stale [] ∧
    FilterSuspicions scenario4Map = .fault :=
  ⟨by decide, rfl, by decide⟩

/-- C2 (the code departs from it): the claim asks that filtering `mixedMap`
return a map that a second filtering returns again.  The map without the
droppable findings is indeed returned as it is by the filter, but the filter
never returns it from `mixedMap`: the first walk erases the droppable finding
of the entity at `0x50000000` with its two entries and then increments the
erased iterators. -/
theorem FilterSuspicions_mixedMap_fault :
    walkMap mixedMap =
      .stale [(0x30000000, [(0x30000000, [xprvSuspicion])]),
              (0x60000000, [(0x60000000, [winmdSuspicion, mismatchSuspicion]),
                            (0x60001000, [mismatchSuspicion])]),
              (0x70000000, [(0x70000000, [winmdSuspicion]),
                            (0x70001000, [mismatchSuspicion])])] ∧
    FilterSuspicions mixedMap = .fault ∧
    FilterSuspicions mixedMapFiltered = .ok mixedMapFiltered :=
  ⟨rfl, by decide, by decide⟩

/-- C3 (the code departs from it): the claim asks that an empty-free map be
filtered to an empty-free map.  On the empty-free map with a droppable finding
alone in its entity the erasures of lines 329-339 do leave an empty-free map,
the entry of the emptied list and the entry of the emptied subregion map being
erased, but the erased iterators are then incremented and no map is
returned. -/
theorem FilterSuspicions_emptyFree_fault :
    emptyFree xprvAndWinmdMap ∧
    walkMap xprvAndWinmdMap = .stale [(0x30000000, [(0x30000000, [xprvSuspicion])])] ∧
    emptyFree [(0x30000000, [(0x30000000, [xprvSuspicion])])] ∧
    FilterSuspicions xprvAndWinmdMap = .fault :=
  ⟨by decide, rfl, by decide, by decide⟩

/-! ## Theorems on `Process::Enumerate` -/

theorem enumerateSubregions_eq (qwOptFlags : OptFlags) (sel : MemorySelection_t) (addr : Nat)
    (SbrMap : Option SbMap) (subs acc : List Subregion) :
    enumerateSubregions qwOptFlags sel addr SbrMap subs acc =
      acc ++ subs.filter (sbrSelected qwOptFlags sel addr SbrMap) := by
  induction subs generalizing acc with
  | nil => simp [enumerateSubregions]
  | cons s rest ih =>
    simp only [enumerateSubregions]
    split
    · rename_i h
      rw [ih, List.filter_cons_of_pos h]
      simp
    · rename_i h
      rw [ih, List.filter_cons_of_neg h]

theorem enumerateEntities_eq (qwOptFlags : OptFlags) (sel : MemorySelection_t) (addr : Nat)
    (M : SuspicionsMap) (ents : EntityMap) (acc : List Subregion) :
    enumerateEntities qwOptFlags sel addr M ents acc =
      acc ++ ents.flatMap (fun p =>
        if entitySelected sel addr p.2 (mapFind M p.2.StartVa).isSome = true ∧ shown p.2 then
          p.2.GetSubregions.filter (sbrSelected qwOptFlags sel addr (mapFind M p.2.StartVa))
        else []) := by
  induction ents generalizing acc with
  | nil => simp [enumerateEntities]
  | cons p rest ih =>
    obtain ⟨k, e⟩ := p
    simp only [enumerateEntities, List.flatMap_cons]
    by_cases hsel : entitySelected sel addr e (mapFind M e.StartVa).isSome = true
    · rw [if_pos hsel]
      by_cases h1 : e.EntType = .PE_FILE
      · rw [if_pos h1, ih, enumerateSubregions_eq, if_pos ⟨hsel, Or.inl h1⟩]
        simp
      · rw [if_neg h1]
        by_cases h2 : e.EntType = .MAPPED_FILE
        · rw [if_pos h2, ih, enumerateSubregions_eq, if_pos ⟨hsel, Or.inr (Or.inl h2)⟩]
          simp
        · rw [if_neg h2]
          by_cases h3 : e.front.Basic.MemType = MEM_PRIVATE
          · rw [if_pos h3, ih, enumerateSubregions_eq, if_pos ⟨hsel, Or.inr (Or.inr h3)⟩]
            simp
          · rw [if_neg h3, ih, if_neg]
            · simp
            · rintro ⟨_, h | h | h⟩
              · exact h1 h
              · exact h2 h
              · exact h3 h
    · rw [if_neg hsel, ih, if_neg (fun h => hsel h.1)]
      simp

theorem foldl_count_eq (l : List Suspicion) (n : Nat) :
    l.foldl (fun nCount s => if !s.FullEntity then nCount + 1 else nCount) n =
      n + l.countP (fun s => !s.FullEntity) := by
  induction l generalizing n with
  | nil => simp
  | cons s rest ih =>
    simp only [List.foldl_cons, List.countP_cons]
    rw [ih]
    cases s.FullEntity
    · simp only [Bool.not_false, if_true, decide_True, Nat.add_comm 1]
      omega
    · simp

theorem sbrSelected_suspicious (qwOptFlags : OptFlags) (addr : Nat) (M : SuspicionsMap)
    (e : Entity) (s : Subregion) :
    sbrSelected qwOptFlags .Suspicious addr (mapFind M e.StartVa) s = true ↔
      qwOptFlags.FROM_BASE = true ∨ carriesSubregionScope M e s := by
  unfold sbrSelected carriesSubregionScope SubEntitySuspCount
  cases hfb : qwOptFlags.FROM_BASE
  · cases h1 : mapFind M e.StartVa with
    | none => simp
    | some sb =>
      cases h2 : mapFind sb s.Basic.BaseAddress with
      | none => simp [h2]
      | some l =>
        simp only [foldl_count_eq]
        simp [h2, List.countP_pos_iff]
  · simp

theorem selection_eq_flatMap (P : Process) (sel : Entity → Prop) [DecidablePred sel]
    (keep : Entity → Subregion → Prop) [∀ e s, Decidable (keep e s)] :
    selection P sel keep = P.Entities.flatMap (fun p =>
      if sel p.2 then p.2.GetSubregions.filter (fun s => decide (keep p.2 s)) else []) := rfl

theorem flatMap_congr_mem {α β : Type} (l : List α) (f g : α → List β)
    (h : ∀ a ∈ l, f a = g a) : l.flatMap f = l.flatMap g := by
  induction l with
  | nil => rfl
  | cons a rest ih =>
    simp only [List.flatMap_cons]
    rw [h a (by simp), ih (fun x hx => h x (by simp [hx]))]

/-! ## Claims on `Process::Enumerate` -/

/-- Scenario 2 of the specification: one private executable region with one
`XPRV` finding; Suspicious mode returns that one subregion. -/
theorem Enumerate_scenario2 :
    Process.Enumerate rwxProcess rwxMap ⟨false, false⟩ .Suspicious 0 = .ok [rwxSbr] := by
  decide


/-- In Suspicious mode `Process.Enumerate` returns, with respect to the
suspicion map after filtering and among the entities it shows (PE files, mapped
files, entities whose first subregion is private): without `FROM_BASE`, the
subregions that carry at least one suspicion that is not entity-scope; with
`FROM_BASE`, all subregions of every entity that has an entry in the filtered
map. -/
theorem Enumerate_Suspicious_shown (P : Process) (Inspected : SuspicionsMap) (qwOptFlags : OptFlags)
    (addr : Nat) :
    Process.Enumerate P Inspected qwOptFlags .Suspicious addr =
      (filteredSuspicions Inspected).map (fun M =>
        if qwOptFlags.FROM_BASE = true then
          selection P (fun e => shown e ∧ hasEntry M e) (fun _ _ => True)
        else
          selection P shown (fun e s => carriesSubregionScope M e s)) := by
  unfold Process.Enumerate
  congr 1
  funext M
  rw [enumerateEntities_eq, List.nil_append]
  have hsel : ∀ e : Entity, (entitySelected .Suspicious addr e (mapFind M e.StartVa).isSome = true) ↔
      hasEntry M e := by
    intro e
    unfold entitySelected hasEntry
    cases mapFind M e.StartVa <;> simp
  split
  · rename_i hfb
    rw [selection_eq_flatMap]
    apply flatMap_congr_mem
    intro p _
    have hall : ∀ s : Subregion,
        sbrSelected qwOptFlags .Suspicious addr (mapFind M p.2.StartVa) s = true := by
      intro s
      rw [sbrSelected_suspicious]
      exact Or.inl hfb
    by_cases h : shown p.2 ∧ hasEntry M p.2
    · rw [if_pos ⟨(hsel p.2).mpr h.2, h.1⟩, if_pos h]
      rw [List.filter_eq_self.mpr (fun s _ => hall s), List.filter_eq_self.mpr]
      intro s _
      simp
    · rw [if_neg, if_neg h]
      rintro ⟨h1, h2⟩
      exact h ⟨h2, (hsel p.2).mp h1⟩
  · rename_i hfb
    rw [selection_eq_flatMap]
    apply flatMap_congr_mem
    intro p _
    have hcar : ∀ s : Subregion,
        sbrSelected qwOptFlags .Suspicious addr (mapFind M p.2.StartVa) s =
          decide (carriesSubregionScope M p.2 s) := by
      intro s
      rw [Bool.eq_iff_iff, sbrSelected_suspicious, decide_eq_true_iff]
      constructor
      · rintro (h | h)
        · exact absurd h hfb
        · exact h
      · exact Or.inr
    by_cases hs : shown p.2
    · rw [if_pos hs]
      by_cases he : hasEntry M p.2
      · rw [if_pos ⟨(hsel p.2).mpr he, hs⟩]
        exact List.filter_congr (fun s _ => hcar s)
      · rw [if_neg (fun h => he ((hsel p.2).mp h.1))]
        symm
        rw [List.filter_eq_nil_iff]
        intro s _
        rw [decide_eq_true_iff]
        rintro ⟨sb, l, h1, _⟩
        exact he ⟨sb, h1⟩
    · rw [if_neg hs, if_neg (fun h => hs h.2)]

theorem regionWalk_fail (l : List Subregion) (post : List (Option Subregion)) (st : WalkState) :
    regionWalk (l.map some ++ none :: post) st = .ok (finalizeGroup (l.foldl walkQuery st)) := by
  induction l generalizing st with
  | nil => simp [regionWalk]
  | cons s rest ih => simp [regionWalk, ih]

theorem regionWalk_unending (l : List Subregion) (st : WalkState) :
    regionWalk (l.map some) st = .diverge := by
  induction l generalizing st with
  | nil => simp [regionWalk]
  | cons s rest ih => simp [regionWalk, ih]

theorem mem_mapInsert {β : Type} (k : Nat) (v : β) (m : List (Nat × β)) (p : Nat × β)
    (h : p ∈ mapInsert k v m) : p = (k, v) ∨ p ∈ m := by
  induction m with
  | nil => simpa [mapInsert] using h
  | cons q rest ih =>
    obtain ⟨k1, v1⟩ := q
    simp only [mapInsert] at h
    split at h
    · rcases List.mem_cons.mp h with h | h
      · exact Or.inl h
      · exact Or.inr h
    · split at h
      · exact Or.inr h
      · rcases List.mem_cons.mp h with h | h
        · exact Or.inr (by simp [h])
        · rcases ih h with h | h
          · exact Or.inl h
          · exact Or.inr (List.mem_cons_of_mem _ h)

theorem mem_mapInsert_of_mem {β : Type} (k : Nat) (v : β) (m : List (Nat × β)) (p : Nat × β)
    (h : p ∈ m) : p ∈ mapInsert k v m := by
  induction m with
  | nil => cases h
  | cons q rest ih =>
    obtain ⟨k1, v1⟩ := q
    simp only [mapInsert]
    split
    · exact List.mem_cons_of_mem _ h
    · split
      · exact h
      · rcases List.mem_cons.mp h with h | h
        · simp [h]
        · exact List.mem_cons_of_mem _ (ih h)

theorem mem_mapInsert_self {β : Type} (k : Nat) (v : β) (m : List (Nat × β))
    (h : k ∉ keys m) : (k, v) ∈ mapInsert k v m := by
  induction m with
  | nil => simp [mapInsert]
  | cons q rest ih =>
    obtain ⟨k1, v1⟩ := q
    simp only [keys, List.map_cons, List.mem_cons, not_or] at h
    simp only [mapInsert]
    split
    · simp
    · split
      · rename_i h2
        exact absurd h2 h.1
      · exact List.mem_cons_of_mem _ (ih h.2)

theorem keys_mapInsert {β : Type} (k : Nat) (v : β) (m : List (Nat × β)) (k1 : Nat)
    (h : k1 ∈ keys (mapInsert k v m)) : k1 = k ∨ k1 ∈ keys m := by
  unfold keys at h ⊢
  obtain ⟨p, hp, rfl⟩ := List.mem_map.mp h
  rcases mem_mapInsert k v m p hp with h | h
  · exact Or.inl (by rw [h])
  · exact Or.inr (List.mem_map_of_mem _ h)

theorem mapInsert_sorted {β : Type} (k : Nat) (v : β) (m : List (Nat × β))
    (h : (keys m).Pairwise (· < ·)) : (keys (mapInsert k v m)).Pairwise (· < ·) := by
  induction m with
  | nil => simp [mapInsert, keys]
  | cons q rest ih =>
    obtain ⟨k1, v1⟩ := q
    have h' := h
    simp only [keys, List.map_cons, List.pairwise_cons] at h
    simp only [mapInsert]
    split
    · rename_i hlt
      simp only [keys, List.map_cons, List.pairwise_cons, List.mem_cons]
      refine ⟨?_, h.1, h.2⟩
      rintro a (rfl | ha)
      · exact hlt
      · exact lt_trans hlt (h.1 a ha)
    · split
      · exact h'
      · rename_i h1 h2
        simp only [keys, List.map_cons, List.pairwise_cons]
        refine ⟨?_, ih h.2⟩
        intro a ha
        rcases keys_mapInsert k v rest a ha with rfl | ha
        · omega
        · exact h.1 a ha

theorem mapFind_eq_of_mem {β : Type} (m : List (Nat × β)) (k : Nat) (v : β)
    (hs : (keys m).Pairwise (· < ·)) (h : (k, v) ∈ m) : mapFind m k = some v := by
  induction m with
  | nil => cases h
  | cons q rest ih =>
    obtain ⟨k1, v1⟩ := q
    simp only [keys, List.map_cons, List.pairwise_cons] at hs
    simp only [mapFind]
    rcases List.mem_cons.mp h with h | h
    · cases h
      simp
    · have hk : k ∈ List.map Prod.fst rest := List.mem_map_of_mem Prod.fst h
      have := hs.1 k hk
      rw [if_neg (by omega)]
      exact ih hs.2 h

theorem mem_of_mapFind {β : Type} (m : List (Nat × β)) (k : Nat) (v : β)
    (h : mapFind m k = some v) : (k, v) ∈ m := by
  induction m with
  | nil => simp [mapFind] at h
  | cons q rest ih =>
    obtain ⟨k1, v1⟩ := q
    simp only [mapFind] at h
    split at h
    · rename_i hk
      cases h
      simp [hk]
    · exact List.mem_cons_of_mem _ (ih h)

theorem walkInv_insert (st : WalkState) (Region : Subregion) (rest : List Subregion)
    (h : walkInv st) (hs : st.Subregions = Region :: rest) :
    (keys (mapInsert Region.Basic.AllocationBase (Entity.Create Region rest)
      st.Entities)).Pairwise (· < ·) ∧
    (∀ p ∈ mapInsert Region.Basic.AllocationBase (Entity.Create Region rest) st.Entities,
      ∃ R r, p.2 = Entity.Create R r ∧ ∀ s ∈ R :: r, s.Basic.AllocationBase = p.1) := by
  refine ⟨mapInsert_sorted _ _ _ h.1, ?_⟩
  intro p hp
  rcases mem_mapInsert _ _ _ _ hp with hp | hp
  · refine ⟨Region, rest, by rw [hp], ?_⟩
    intro s hs1
    rw [hp]
    rcases List.mem_cons.mp hs1 with rfl | hs1
    · rfl
    · exact h.2.2 Region rest hs s hs1
  · exact h.2.1 p hp

theorem walkInv_walkQuery (st : WalkState) (Sbr : Subregion) (h : walkInv st) :
    walkInv (walkQuery st Sbr) := by
  unfold walkQuery
  split
  · refine ⟨h.1, h.2.1, ?_⟩
    intro R r hR s hs
    simp only [List.cons.injEq] at hR
    rw [← hR.2] at hs
    cases hs
  · rename_i Region rest hsub
    split
    · obtain ⟨h1, h2⟩ := walkInv_insert st Region rest h hsub
      refine ⟨h1, h2, ?_⟩
      intro R r hR s hs
      simp only [List.cons.injEq] at hR
      rw [← hR.2] at hs
      cases hs
    · rename_i hab
      refine ⟨h.1, h.2.1, ?_⟩
      intro R r hR s hs
      simp only [List.cons_append, List.cons.injEq] at hR
      rw [← hR.1]
      rw [← hR.2] at hs
      rcases List.mem_append.mp hs with hs | hs
      · exact h.2.2 Region rest hsub s hs
      · simp only [List.mem_singleton] at hs
        rw [hs]
        simpa using hab

theorem walkInv_foldl (l : List Subregion) (st : WalkState) (h : walkInv st) :
    walkInv (l.foldl walkQuery st) := by
  induction l generalizing st with
  | nil => exact h
  | cons s rest ih => exact ih _ (walkInv_walkQuery st s h)

theorem walkInv_init : walkInv { Subregions := [], Entities := [] } := by
  refine ⟨by simp [keys], by simp, ?_⟩
  intro R r hR
  cases hR

theorem finalizeGroup_inv (st : WalkState) (h : walkInv st) :
    (keys (finalizeGroup st)).Pairwise (· < ·) ∧
    (∀ p ∈ finalizeGroup st, ∃ R r, p.2 = Entity.Create R r ∧
      ∀ s ∈ R :: r, s.Basic.AllocationBase = p.1) := by
  unfold finalizeGroup
  split
  · exact ⟨h.1, h.2.1⟩
  · rename_i Region rest hsub
    exact walkInv_insert st Region rest h hsub

theorem okAfter_sound (X : Nat) (a2 : List Subregion) (s : Subregion) (b : List Subregion)
    (h : okAfter X (a2 ++ s :: b) = true) (hs : nonFree s) (hX : s.Basic.AllocationBase = X) :
    ∀ y ∈ a2, y.Basic.AllocationBase = X := by
  induction a2 with
  | nil => simp
  | cons y t ih =>
    simp only [List.cons_append, okAfter] at h
    split at h
    · rename_i hy
      intro z hz
      rcases List.mem_cons.mp hz with rfl | hz
      · exact hy
      · exact ih h z hz
    · exfalso
      simp only [noLater, List.all_eq_true] at h
      have := h s (by simp)
      simp [hs, hX] at this

theorem noReturn_of_check (l : List Subregion) (h : noReturnCheck l = true) : noReturn l := by
  induction l with
  | nil =>
    intro a1 x a2 s b hl
    simp at hl
  | cons c t ih =>
    simp only [noReturnCheck, Bool.and_eq_true] at h
    intro a1 x a2 s b hl hs hx
    cases a1 with
    | nil =>
      simp only [List.nil_append, List.cons_append, List.cons.injEq] at hl
      obtain ⟨rfl, rfl⟩ := hl
      exact okAfter_sound _ a2 s b (by rw [hx] at h; exact h.1) hs rfl
    | cons d a1' =>
      simp only [List.cons_append, List.cons.injEq] at hl
      exact ih h.2 a1' x a2 s b (by simpa using hl.2) hs hx

theorem exists_run_before {α : Type} (P : α → Prop) (a : List α) :
    ∃ a0 g0, a = a0 ++ g0 ∧ (∀ g ∈ g0, P g) ∧
      (a0 = [] ∨ ∃ a0' y, a0 = a0' ++ [y] ∧ ¬ P y) := by
  classical
  induction a using List.reverseRecOn with
  | nil => exact ⟨[], [], rfl, by simp, Or.inl rfl⟩
  | append_singleton a' z ih =>
    by_cases hz : P z
    · obtain ⟨a0, g0, h1, h2, h3⟩ := ih
      refine ⟨a0, g0 ++ [z], by rw [h1, List.append_assoc], ?_, h3⟩
      intro g hg
      rcases List.mem_append.mp hg with hg | hg
      · exact h2 g hg
      · simp only [List.mem_singleton] at hg
        rw [hg]; exact hz
    · exact ⟨a' ++ [z], [], by simp, by simp, Or.inr ⟨a', z, rfl, hz⟩⟩

theorem exists_run_after {α : Type} (P : α → Prop) (b : List α) :
    ∃ g1 b0, b = g1 ++ b0 ∧ (∀ g ∈ g1, P g) ∧
      (b0 = [] ∨ ∃ y b0', b0 = y :: b0' ∧ ¬ P y) := by
  classical
  induction b with
  | nil => exact ⟨[], [], rfl, by simp, Or.inl rfl⟩
  | cons z b' ih =>
    by_cases hz : P z
    · obtain ⟨g1, b0, h1, h2, h3⟩ := ih
      refine ⟨z :: g1, b0, by rw [h1, List.cons_append], ?_, h3⟩
      intro g hg
      rcases List.mem_cons.mp hg with rfl | hg
      · exact hz
      · exact h2 g hg
    · exact ⟨[], z :: b', by simp, by simp, Or.inr ⟨z, b', rfl, hz⟩⟩

theorem touched_walkQuery (st : WalkState) (Sbr : Subregion) (k : Nat)
    (h : k ∈ keys (walkQuery st Sbr).Entities ∨
      ∃ s ∈ (walkQuery st Sbr).Subregions, s.Basic.AllocationBase = k) :
    (k ∈ keys st.Entities ∨ ∃ s ∈ st.Subregions, s.Basic.AllocationBase = k) ∨
      Sbr.Basic.AllocationBase = k := by
  unfold walkQuery at h
  split at h
  · rcases h with h | ⟨s, hs, hk⟩
    · exact Or.inl (Or.inl h)
    · simp only [List.mem_singleton] at hs
      exact Or.inr (by rw [← hs]; exact hk)
  · rename_i Region rest hsub
    split at h
    · rcases h with h | ⟨s, hs, hk⟩
      · rcases keys_mapInsert _ _ _ _ h with h | h
        · exact Or.inl (Or.inr ⟨Region, by rw [hsub]; simp, h.symm⟩)
        · exact Or.inl (Or.inl h)
      · simp only [List.mem_singleton] at hs
        exact Or.inr (by rw [← hs]; exact hk)
    · rcases h with h | ⟨s, hs, hk⟩
      · exact Or.inl (Or.inl h)
      · simp only at hs
        rcases List.mem_append.mp hs with hs | hs
        · exact Or.inl (Or.inr ⟨s, by rw [hsub]; exact hs, hk⟩)
        · simp only [List.mem_singleton] at hs
          exact Or.inr (by rw [← hs]; exact hk)

theorem touched_foldl (l : List Subregion) (st : WalkState) (k : Nat)
    (h : k ∈ keys (l.foldl walkQuery st).Entities ∨
      ∃ s ∈ (l.foldl walkQuery st).Subregions, s.Basic.AllocationBase = k) :
    (k ∈ keys st.Entities ∨ ∃ s ∈ st.Subregions, s.Basic.AllocationBase = k) ∨
      ∃ s ∈ l, s.Basic.AllocationBase = k := by
  induction l generalizing st with
  | nil => exact Or.inl h
  | cons c t ih =>
    rcases ih (walkQuery st c) h with h1 | ⟨s, hs, hk⟩
    · rcases touched_walkQuery st c k h1 with h2 | h2
      · exact Or.inl h2
      · exact Or.inr ⟨c, by simp, h2⟩
    · exact Or.inr ⟨s, List.mem_cons_of_mem _ hs, hk⟩

theorem foldl_same_base (gs : List Subregion) (st : WalkState) (Region : Subregion)
    (rest : List Subregion) (hsub : st.Subregions = Region :: rest)
    (hgs : ∀ g ∈ gs, g.Basic.AllocationBase = Region.Basic.AllocationBase) :
    gs.foldl walkQuery st =
      { Subregions := Region :: rest ++ gs, Entities := st.Entities } := by
  induction gs generalizing st rest with
  | nil =>
    cases st
    simp only at hsub
    simp [hsub]
  | cons g t ih =>
    have hg := hgs g (by simp)
    have hstep : walkQuery st g =
        { Subregions := Region :: (rest ++ [g]), Entities := st.Entities } := by
      unfold walkQuery
      rw [hsub]
      simp [hg]
    rw [List.foldl_cons, hstep]
    rw [ih _ (rest ++ [g]) rfl (fun x hx => hgs x (List.mem_cons_of_mem _ hx))]
    simp

theorem foldl_group (G : List Subregion) (X : Nat) (st : WalkState) (hG : G ≠ [])
    (hX : ∀ g ∈ G, g.Basic.AllocationBase = X)
    (hst : ∀ s ∈ st.Subregions, s.Basic.AllocationBase ≠ X) :
    G.foldl walkQuery st = { Subregions := G, Entities := finalizeGroup st } := by
  cases G with
  | nil => exact absurd rfl hG
  | cons g gs =>
    have hg := hX g (by simp)
    have hstep : walkQuery st g = { Subregions := [g], Entities := finalizeGroup st } := by
      unfold walkQuery finalizeGroup
      cases hsub : st.Subregions with
      | nil => rfl
      | cons Region rest =>
        have := hst Region (by rw [hsub]; simp)
        simp only
        rw [if_pos (by rw [hg]; exact fun h => this h.symm)]
    rw [List.foldl_cons, hstep]
    rw [foldl_same_base gs _ g [] rfl (fun x hx => by rw [hg]; exact hX x (List.mem_cons_of_mem _ hx))]
    simp

theorem keys_finalizeGroup (st : WalkState) (k : Nat) (h : k ∈ keys (finalizeGroup st)) :
    k ∈ keys st.Entities ∨ ∃ s ∈ st.Subregions, s.Basic.AllocationBase = k := by
  unfold finalizeGroup at h
  split at h
  · exact Or.inl h
  · rename_i Region rest hsub
    rcases keys_mapInsert _ _ _ _ h with h | h
    · exact Or.inr ⟨Region, by rw [hsub]; simp, h.symm⟩
    · exact Or.inl h

/-- The state of the walk after the subregions `a0` followed by a group `G` of
allocation base `X`, when `X` does not occur in `a0`: the pending group is `G`
and no entity is keyed `X` yet. -/
theorem walk_group (a0 G : List Subregion) (X : Nat) (hG : G ≠ [])
    (hX : ∀ g ∈ G, g.Basic.AllocationBase = X)
    (ha0 : ∀ x ∈ a0, x.Basic.AllocationBase ≠ X) :
    ((a0 ++ G).foldl walkQuery { Subregions := [], Entities := [] }).Subregions = G ∧
    X ∉ keys ((a0 ++ G).foldl walkQuery { Subregions := [], Entities := [] }).Entities ∧
    walkInv ((a0 ++ G).foldl walkQuery { Subregions := [], Entities := [] }) := by
  have hinv := walkInv_foldl (a0 ++ G) _ walkInv_init
  have htouch : ∀ k, (k ∈ keys (a0.foldl walkQuery { Subregions := [], Entities := [] }).Entities ∨
      ∃ s ∈ (a0.foldl walkQuery { Subregions := [], Entities := [] }).Subregions,
        s.Basic.AllocationBase = k) → ∃ s ∈ a0, s.Basic.AllocationBase = k := by
    intro k hk
    rcases touched_foldl a0 _ k hk with h | h
    · rcases h with h | ⟨s, hs, _⟩
      · simp [keys] at h
      · cases hs
    · exact h
  have hpend : ∀ s ∈ (a0.foldl walkQuery { Subregions := [], Entities := [] }).Subregions,
      s.Basic.AllocationBase ≠ X := by
    intro s hs hsX
    obtain ⟨x, hx, hxX⟩ := htouch X (Or.inr ⟨s, hs, hsX⟩)
    exact ha0 x hx hxX
  rw [List.foldl_append] at hinv ⊢
  rw [foldl_group G X _ hG hX hpend] at hinv ⊢
  refine ⟨rfl, ?_, hinv⟩
  intro hk
  simp only at hk
  obtain ⟨x, hx, hxX⟩ := htouch X (keys_finalizeGroup _ X hk)
  exact ha0 x hx hxX

theorem mem_entities_walkQuery (st : WalkState) (Sbr : Subregion) (p : Nat × Entity)
    (h : p ∈ st.Entities) : p ∈ (walkQuery st Sbr).Entities := by
  unfold walkQuery
  split
  · exact h
  · split
    · exact mem_mapInsert_of_mem _ _ _ _ h
    · exact h

theorem mem_entities_foldl (l : List Subregion) (st : WalkState) (p : Nat × Entity)
    (h : p ∈ st.Entities) : p ∈ (l.foldl walkQuery st).Entities := by
  induction l generalizing st with
  | nil => exact h
  | cons c t ih => exact ih _ (mem_entities_walkQuery st c p h)

theorem mem_finalizeGroup (st : WalkState) (p : Nat × Entity) (h : p ∈ st.Entities) :
    p ∈ finalizeGroup st := by
  unfold finalizeGroup
  split
  · exact h
  · exact mem_mapInsert_of_mem _ _ _ _ h

theorem Entity.GetSubregions_Create (Region : Subregion) (rest : List Subregion) :
    (Entity.Create Region rest).GetSubregions = Region :: rest := rfl

/-- A group `G` of allocation base `X` that comes after subregions `a0` in
which `X` does not occur, and is followed by nothing or by a subregion of
another allocation base, is entered in the final map under `X`. -/
theorem group_inserted (a0 G b0 : List Subregion) (X : Nat) (hG : G ≠ [])
    (hX : ∀ g ∈ G, g.Basic.AllocationBase = X)
    (ha0 : ∀ x ∈ a0, x.Basic.AllocationBase ≠ X)
    (hb0 : b0 = [] ∨ ∃ y b0', b0 = y :: b0' ∧ y.Basic.AllocationBase ≠ X) :
    ∃ g gs, G = g :: gs ∧
      (X, Entity.Create g gs) ∈
        finalizeGroup ((a0 ++ G ++ b0).foldl walkQuery { Subregions := [], Entities := [] }) := by
  obtain ⟨hsub, hkey, _⟩ := walk_group a0 G X hG hX ha0
  cases G with
  | nil => exact absurd rfl hG
  | cons g gs =>
    refine ⟨g, gs, rfl, ?_⟩
    have hg : g.Basic.AllocationBase = X := hX g (by simp)
    rw [List.foldl_append]
    generalize (a0 ++ g :: gs).foldl walkQuery { Subregions := [], Entities := [] } = st
      at hsub hkey
    rcases hb0 with rfl | ⟨y, b0', rfl, hy⟩
    · simp only [List.foldl_nil]
      unfold finalizeGroup
      rw [hsub]
      simp only
      rw [hg]
      exact mem_mapInsert_self _ _ _ hkey
    · rw [List.foldl_cons]
      apply mem_finalizeGroup
      apply mem_entities_foldl
      unfold walkQuery
      rw [hsub]
      simp only
      rw [if_pos (by rw [hg]; exact hy), hg]
      exact mem_mapInsert_self _ _ _ hkey

/-! ## Claims on the region walk -/

/-- C7: for every sequence of region-query results that reaches a failing
query, the walk ends, and every entity of the entity map, under its key `K`, is
created from a group of subregions that all have allocation base `K`. -/
theorem RegionWalk_entity_base (observed : List Subregion) (post : List (Option Subregion)) :
    ∃ Entities, RegionWalk (observed.map some ++ none :: post) = .ok Entities ∧
      ∀ p ∈ Entities, ∃ Region rest, p.2 = Entity.Create Region rest ∧
        p.2.GetSubregions = Region :: rest ∧
        ∀ s ∈ Region :: rest, s.Basic.AllocationBase = p.1 := by
  refine ⟨_, regionWalk_fail observed post _, ?_⟩
  intro p hp
  obtain ⟨R, r, h1, h2⟩ :=
    (finalizeGroup_inv _ (walkInv_foldl observed _ walkInv_init)).2 p hp
  exact ⟨R, r, h1, by rw [h1]; rfl, h2⟩

/-- C8 (as stated, refuted): the walk observes the free region at 0, the
private region at `0x10000000` and the free region above it, then a query
fails.  The pending group is the second free region, of allocation base 0; the
entity keyed 0 in the final map is the one of the first free region, since
`insert` leaves the entry of a key that is present. -/
theorem RegionWalk_pending_counterexample :
    ([freeSbr, heapSbr, freeSbr2].foldl walkQuery
      { Subregions := [], Entities := [] }).Subregions = [freeSbr2] ∧
    freeSbr2.Basic.AllocationBase = 0 ∧
    RegionWalk [some freeSbr, some heapSbr, some freeSbr2, none] =
      .ok [(0, Entity.Create freeSbr []), (0x10000000, Entity.Create heapSbr [])] ∧
    (Entity.Create freeSbr []).GetSubregions ≠ [freeSbr2] := by
  decide

/-- C8 (amended): when a query fails while the pending group `G` for
allocation base `X` is non-empty and `X` does not occur among the subregions
observed before that group, the final entity map contains an entity keyed `X`
whose subregions are exactly the pending subregions, in the order observed. -/
theorem RegionWalk_pending_group (before G : List Subregion)
    (post : List (Option Subregion)) (X : Nat) (hG : G ≠ [])
    (hX : ∀ g ∈ G, g.Basic.AllocationBase = X)
    (hbefore : ∀ x ∈ before, x.Basic.AllocationBase ≠ X) :
    ((before ++ G).foldl walkQuery { Subregions := [], Entities := [] }).Subregions = G ∧
    ∃ Entities e, RegionWalk ((before ++ G).map some ++ none :: post) = .ok Entities ∧
      mapFind Entities X = some e ∧ e.GetSubregions = G := by
  refine ⟨(walk_group before G X hG hX hbefore).1, ?_⟩
  obtain ⟨g, gs, hGeq, hmem⟩ := group_inserted before G [] X hG hX hbefore (Or.inl rfl)
  rw [List.append_nil] at hmem
  refine ⟨_, Entity.Create g gs, regionWalk_fail (before ++ G) post _, ?_, by rw [hGeq]; rfl⟩
  exact mapFind_eq_of_mem _ _ _
    (finalizeGroup_inv _ (walkInv_foldl (before ++ G) _ walkInv_init)).1 hmem

/-- Witness of C8: after a free and a private region the walk ends on the two
pages of the allocation at `0x30000000`, which become the entity keyed there. -/
theorem RegionWalk_pending_group_witness :
    ∃ Entities e,
      RegionWalk (([freeSbr, heapSbr] ++ [rwxSbr, rwxSbr2]).map some ++ none :: []) =
        .ok Entities ∧
      mapFind Entities 0x30000000 = some e ∧ e.GetSubregions = [rwxSbr, rwxSbr2] :=
  (RegionWalk_pending_group [freeSbr, heapSbr] [rwxSbr, rwxSbr2] [] 0x30000000
    (by decide) (by decide) (by decide)).2

/-- C9 (as stated, refuted): the walk observes the private region at
`0x10000000`, a free region, and a committed private region whose allocation
base is `0x10000000` again, then a query fails.  The last subregion is not free
and belongs to no entity of the final map. -/
theorem RegionWalk_partition_counterexample :
    RegionWalk [some heapSbr, some freeSbr2, some lateSbr, none] =
      .ok [(0, Entity.Create freeSbr2 []), (0x10000000, Entity.Create heapSbr [])] ∧
    nonFree lateSbr ∧
    ∀ p ∈ [(0, Entity.Create freeSbr2 []), (0x10000000, Entity.Create heapSbr [])],
      lateSbr ∉ p.2.GetSubregions := by
  decide

/-- C9 (amended): for every region walk in which no allocation base of a
non-free subregion comes back after a different allocation base was observed in
between, every non-free subregion observed before the first failing query
belongs to exactly one entity of the final entity map. -/
theorem RegionWalk_partition (observed : List Subregion) (post : List (Option Subregion))
    (h : noReturn observed) :
    ∃ Entities, RegionWalk (observed.map some ++ none :: post) = .ok Entities ∧
      ∀ s ∈ observed, nonFree s → ∃! p, p ∈ Entities ∧ s ∈ p.2.GetSubregions := by
  refine ⟨_, regionWalk_fail observed post _, ?_⟩
  intro s hs hfree
  have hfin := finalizeGroup_inv _ (walkInv_foldl observed _ walkInv_init)
  obtain ⟨a, b, hab⟩ := List.append_of_mem hs
  obtain ⟨a0, g0, ha, hg0, ha0⟩ :=
    exists_run_before (fun g => g.Basic.AllocationBase = s.Basic.AllocationBase) a
  obtain ⟨g1, b0, hb, hg1, hb0⟩ :=
    exists_run_after (fun g => g.Basic.AllocationBase = s.Basic.AllocationBase) b
  have hobs : observed = a0 ++ (g0 ++ s :: g1) ++ b0 := by
    rw [hab, ha, hb]; simp
  have hGX : ∀ g ∈ g0 ++ s :: g1, g.Basic.AllocationBase = s.Basic.AllocationBase := by
    intro g hg
    rcases List.mem_append.mp hg with hg | hg
    · exact hg0 g hg
    · rcases List.mem_cons.mp hg with rfl | hg
      · rfl
      · exact hg1 g hg
  have hbefore : ∀ x ∈ a0, x.Basic.AllocationBase ≠ s.Basic.AllocationBase := by
    intro x hx hxs
    rcases ha0 with rfl | ⟨a0', y, rfl, hy⟩
    · cases hx
    · rcases List.mem_append.mp hx with hx | hx
      · obtain ⟨c1, c2, rfl⟩ := List.append_of_mem hx
        apply hy
        refine h c1 x (c2 ++ [y] ++ g0) s (g1 ++ b0) ?_ hfree hxs y (by simp)
        rw [hobs]; simp
      · simp only [List.mem_singleton] at hx
        rw [hx] at hxs
        exact hy hxs
  obtain ⟨g, gs, hGeq, hmem⟩ := group_inserted a0 (g0 ++ s :: g1) b0 s.Basic.AllocationBase
    (by simp) hGX hbefore hb0
  rw [← hobs] at hmem
  have hsG : s ∈ (Entity.Create g gs).GetSubregions := by
    rw [Entity.GetSubregions_Create, ← hGeq]; simp
  refine ⟨(s.Basic.AllocationBase, Entity.Create g gs), ⟨hmem, hsG⟩, ?_⟩
  rintro ⟨k, e⟩ ⟨hp, hse⟩
  obtain ⟨R, r, h1, h2⟩ := hfin.2 (k, e) hp
  simp only at h1 h2 hse
  have hk : s.Basic.AllocationBase = k := by
    apply h2
    rw [h1, Entity.GetSubregions_Create] at hse
    exact hse
  subst hk
  have e1 := mapFind_eq_of_mem _ _ _ hfin.1 hp
  have e2 := mapFind_eq_of_mem _ _ _ hfin.1 hmem
  rw [e1] at e2
  cases e2
  rfl

/-- Witness of C9: a walk over free and private regions in which only the
allocation base 0 of the free regions comes back. -/
theorem RegionWalk_partition_witness :
    ∃ Entities,
      RegionWalk ([freeSbr, heapSbr, freeSbr2, rwxSbr, rwxSbr2].map some ++ none :: []) =
        .ok Entities ∧
      ∀ s ∈ [freeSbr, heapSbr, freeSbr2, rwxSbr, rwxSbr2], nonFree s →
        ∃! p, p ∈ Entities ∧ s ∈ p.2.GetSubregions :=
  RegionWalk_partition [freeSbr, heapSbr, freeSbr2, rwxSbr, rwxSbr2] []
    (noReturn_of_check _ (by decide))

/-! ## Claims on the constructor -/

/-- When the two name queries and the path translation succeed, a Wow64
inspector is refused a target that is not Wow64. -/
theorem Construct_mismatch_of_identity (dwPid : Nat) (os : OsAnswers)
    (ImageName DevFilePath ImageFilePath : List Char)
    (hopen : os.OpenProcess = true) (h1 : os.GetModuleBaseNameW = some ImageName)
    (h2 : os.GetProcessImageFileNameW = some DevFilePath)
    (h3 : os.TranslateDevicePath = some ImageFilePath)
    (h4 : os.IsWow64ProcessFound = true) (h5 : os.SelfWow64 = some true)
    (h6 : os.TargetWow64 = some false) :
    Process.Construct dwPid os = .thrown .ArchitectureMismatch := by
  simp [Process.Construct, identityAndArchitecture, hopen, h1, h2, h3, h4, h5, h6]

/-- When one of the two name queries or the path translation fails, the
constructor never throws at line 94, whatever the Wow64 queries would tell. -/
theorem Construct_no_mismatch_without_identity (dwPid : Nat) (os : OsAnswers)
    (h : os.GetModuleBaseNameW = none ∨ os.GetProcessImageFileNameW = none ∨
      os.TranslateDevicePath = none) :
    Process.Construct dwPid os ≠ .thrown .ArchitectureMismatch := by
  have hid : identityAndArchitecture os = .ok ([], [], os.Wow64Unset) := by
    unfold identityAndArchitecture
    rcases h with h | h | h
    · rw [h]
    · rw [h]
      cases os.GetModuleBaseNameW <;> rfl
    · rw [h]
      cases os.GetModuleBaseNameW <;> cases os.GetProcessImageFileNameW <;> rfl
  unfold Process.Construct
  rw [hid]
  split
  · simp only
    split
    · simp
    · split <;> simp
  · simp

/-- C10 (the code departs from it): the handle opens, the inspector runs under
Wow64 and the target does not, and `GetModuleBaseNameW` fails.  The claim asks
for the architecture-mismatch error; the constructor never makes the Wow64
queries and builds the process. -/
theorem Construct_cross_architecture_built :
    crossArchOs.OpenProcess = true ∧ crossArchOs.SelfWow64 = some true ∧
    crossArchOs.TargetWow64 = some false ∧
    Process.Construct 4242 crossArchOs =
      .built { Pid := 4242, Name := [], ImageFilePath := [], Wow64 := false, Heaps := [],
               Threads := [], Entities := [(0x10000000, Entity.Create heapSbr [])] } := by
  decide

/-! ## Claims on the thread loop of the constructor -/

theorem collectThreads_eq_none_iff (Pid : Nat) (NewThread : Nat → Option Thread)
    (entries : List THREADENTRY32) (Threads : List Thread) :
    collectThreads Pid NewThread entries Threads = none ↔
      ∃ e ∈ entries, e.th32OwnerProcessID = Pid ∧ NewThread e.th32ThreadID = none := by
  induction entries generalizing Threads with
  | nil => simp [collectThreads]
  | cons e rest ih =>
    simp only [collectThreads]
    by_cases ho : e.th32OwnerProcessID = Pid
    · rw [if_pos ho]
      cases hn : NewThread e.th32ThreadID with
      | none =>
        simp only [true_iff]
        exact ⟨e, by simp, ho, hn⟩
      | some t =>
        simp only
        rw [ih]
        constructor
        · rintro ⟨x, hx, h1, h2⟩
          exact ⟨x, List.mem_cons_of_mem _ hx, h1, h2⟩
        · rintro ⟨x, hx, h1, h2⟩
          rcases List.mem_cons.mp hx with rfl | hx
          · rw [hn] at h2; cases h2
          · exact ⟨x, hx, h1, h2⟩
    · rw [if_neg ho, ih]
      constructor
      · rintro ⟨x, hx, h1, h2⟩
        exact ⟨x, List.mem_cons_of_mem _ hx, h1, h2⟩
      · rintro ⟨x, hx, h1, h2⟩
        rcases List.mem_cons.mp hx with rfl | hx
        · exact absurd h1 ho
        · exact ⟨x, hx, h1, h2⟩

theorem collectThreads_eq_some (Pid : Nat) (NewThread : Nat → Option Thread)
    (entries : List THREADENTRY32) (Threads T : List Thread)
    (h : collectThreads Pid NewThread entries Threads = some T) :
    T.map some = Threads.map some ++
        (ownedEntries Pid entries).map (fun e => NewThread e.th32ThreadID) ∧
      threadCtorCalls Pid NewThread entries = ownedEntries Pid entries := by
  induction entries generalizing Threads with
  | nil =>
    simp only [collectThreads, Option.some.injEq] at h
    simp [ownedEntries, threadCtorCalls, h]
  | cons e rest ih =>
    simp only [collectThreads] at h
    by_cases ho : e.th32OwnerProcessID = Pid
    · rw [if_pos ho] at h
      cases hn : NewThread e.th32ThreadID with
      | none => rw [hn] at h; cases h
      | some t =>
        rw [hn] at h
        obtain ⟨h1, h2⟩ := ih _ h
        constructor
        · rw [h1]
          simp [ownedEntries, List.filter_cons, ho, hn]
        · simp only [threadCtorCalls, if_pos ho, hn, h2]
          simp [ownedEntries, List.filter_cons, ho]
    · rw [if_neg ho] at h
      obtain ⟨h1, h2⟩ := ih _ h
      constructor
      · rw [h1]
        simp [ownedEntries, List.filter_cons, ho]
      · simp only [threadCtorCalls, if_neg ho, h2]
        simp [ownedEntries, List.filter_cons, ho]

theorem threadCtorCalls_initial (Pid : Nat) (NewThread : Nat → Option Thread)
    (entries : List THREADENTRY32) :
    threadCtorCalls Pid NewThread entries <+: ownedEntries Pid entries := by
  induction entries with
  | nil => simp [threadCtorCalls, ownedEntries]
  | cons e rest ih =>
    simp only [threadCtorCalls]
    by_cases ho : e.th32OwnerProcessID = Pid
    · rw [if_pos ho]
      have hown : ownedEntries Pid (e :: rest) = e :: ownedEntries Pid rest := by
        simp [ownedEntries, List.filter_cons, ho]
      rw [hown]
      cases NewThread e.th32ThreadID with
      | none => exact ⟨ownedEntries Pid rest, rfl⟩
      | some t =>
        obtain ⟨r, hr⟩ := ih
        exact ⟨r, by simp only [List.cons_append, hr]⟩
    · rw [if_neg ho]
      have hown : ownedEntries Pid (e :: rest) = ownedEntries Pid rest := by
        simp [ownedEntries, List.filter_cons, ho]
      rw [hown]
      exact ih

/-- C11: once `OpenProcess` has returned a handle and lines 74-101 have not
thrown, for every thread list the constructor throws at line 189 exactly when
the thread record cannot be made for some entry owned by the target process;
a thread record is made only for entries owned by the target process; and the
thread list of a process that is built holds the records of the owned entries,
one for each, in the order of the list. -/
theorem Construct_thread_query (dwPid : Nat) (os : OsAnswers) (entries : List THREADENTRY32)
    (x : List Char × List Char × Bool) (hopen : os.OpenProcess = true)
    (harch : identityAndArchitecture os = .ok x) (hsnap : os.ThreadSnap = some entries) :
    (Process.Construct dwPid os = .thrown .ThreadQueryFailed ↔
      ∃ e ∈ entries, e.th32OwnerProcessID = dwPid ∧ os.NewThread e.th32ThreadID = none) ∧
    (∀ e ∈ threadCtorCalls dwPid os.NewThread entries,
      e ∈ entries ∧ e.th32OwnerProcessID = dwPid) ∧
    (∀ P, Process.Construct dwPid os = .built P →
      P.Threads.map some =
        (ownedEntries dwPid entries).map (fun e => os.NewThread e.th32ThreadID) ∧
      threadCtorCalls dwPid os.NewThread entries = ownedEntries dwPid entries) := by
  obtain ⟨Name, ImageFilePath, Wow64⟩ := x
  have hC : Process.Construct dwPid os =
      match collectThreads dwPid os.NewThread entries [] with
      | none => .thrown .ThreadQueryFailed
      | some Threads =>
        match RegionWalk os.RegionQueries with
        | .ok Entities =>
          .built { Pid := dwPid, Name := Name, ImageFilePath := ImageFilePath, Wow64 := Wow64,
                   Heaps := os.ReadHeaps Wow64, Threads := Threads, Entities := Entities }
        | _ => .diverge := by
    unfold Process.Construct
    rw [if_pos hopen, harch, hsnap]
  refine ⟨?_, ?_, ?_⟩
  · rw [← collectThreads_eq_none_iff dwPid os.NewThread entries [], hC]
    cases hct : collectThreads dwPid os.NewThread entries [] with
    | none => simp
    | some T =>
      simp only [reduceCtorEq, iff_false]
      cases RegionWalk os.RegionQueries <;> simp
  · intro e he
    have hmem := (threadCtorCalls_initial dwPid os.NewThread entries).subset he
    have := List.mem_filter.mp hmem
    exact ⟨this.1, by simpa using this.2⟩
  · intro P hP
    rw [hC] at hP
    cases hct : collectThreads dwPid os.NewThread entries [] with
    | none => rw [hct] at hP; cases hP
    | some T =>
      rw [hct] at hP
      simp only at hP
      obtain ⟨h1, h2⟩ := collectThreads_eq_some dwPid os.NewThread entries [] T hct
      cases hrw : RegionWalk os.RegionQueries with
      | ok Entities =>
        rw [hrw] at hP
        simp only [Construction.built.injEq] at hP
        rw [← hP]
        exact ⟨by simpa using h1, h2⟩
      | fault => rw [hrw] at hP; cases hP
      | diverge => rw [hrw] at hP; cases hP

/-- Witness of C11: the target 4242 owns threads 100 and 300 of the list; the
record of thread 200, owned by another process, could not be made and is never
asked for; the process is built with the records of threads 100 and 300. -/
theorem Construct_thread_query_witness :
    nativeOs.NewThread 200 = none ∧
    ¬ (Process.Construct 4242 nativeOs = .thrown .ThreadQueryFailed) ∧
    threadCtorCalls 4242 nativeOs.NewThread threadList =
      [{ th32ThreadID := 100, th32OwnerProcessID := 4242 },
       { th32ThreadID := 300, th32OwnerProcessID := 4242 }] :=
  ⟨by decide,
   fun h => absurd ((Construct_thread_query 4242 nativeOs threadList
      ("a.exe".toList, "C:\\a.exe".toList, false) (by decide) rfl rfl).1.mp h)
      (by decide),
   by decide⟩

/-! ## Further claims on `FilterSuspicions` -/

theorem filterCase_XPRV (s : Suspicion) (h : s.SuspType = .XPRV) :
    filterCase s = some false := by
  unfold filterCase
  rw [h]
  simp

/-- The erasures of one walk never take an `XPRV` suspicion: the `XPRV`
suspicions of the map they leave are those before the walk, under their keys
and in their order. -/
theorem walkMap_erased_XPRV (M M1 : SuspicionsMap) (h : walkMap M = .stale M1) :
    (entries M1).filter isXPRV = (entries M).filter isXPRV := by
  obtain ⟨a, t, b, h1, h2, _, h4⟩ := walkMap_erased M M1 h
  have ht : isXPRV t = false := by
    unfold isXPRV
    by_contra hne
    have hx : t.2.2.SuspType = .XPRV := by simpa using hne
    rw [filterCase_XPRV _ hx] at h4
    cases h4
  rw [h1, h2]
  simp [List.filter_append, List.filter_cons, ht]

/-- C13 (the code departs from it): the claim asks that the run on the map with
two droppable suspicions end after three walks, each of the first two removing
one suspicion.  The first walk erases the first suspicion with its two
entries and sets `bReWalkMap`, and then increments the erased iterators in the
headers of lines 289, 285 and 276: undefined behaviour, before the test of line
352 can start a second walk. -/
theorem FilterSuspicionsRun_twoWinmd_fault :
    suspicionCount twoWinmdMap = 2 ∧
    walkMap twoWinmdMap = .stale [(0x70000000, [(0x70000000, [winmdSuspicion])])] ∧
    suspicionCount [(0x70000000, [(0x70000000, [winmdSuspicion])])] = 1 ∧
    FilterSuspicionsRun twoWinmdMap = .fault :=
  ⟨by decide, rfl, by decide, rfl⟩

/-! ## Claims on `Process::DumpBlock` -/

/-- On a committed region `DumpBlock` calls the sink once and returns whether
`Create` succeeded. -/
theorem DumpBlock_committed (Create : MEMORY_BASIC_INFORMATION → Bool)
    (Mbi : MEMORY_BASIC_INFORMATION) (h : Mbi.State = MEM_COMMIT) :
    Process.DumpBlock Create Mbi = { result := .ok (Create Mbi), sinkCalls := [Mbi] } := by
  unfold Process.DumpBlock
  rw [if_pos h]
  cases Create Mbi <;> rfl

/-- On a region that is not committed `DumpBlock` does not call the sink and
reaches the end of its body without a `return`. -/
theorem DumpBlock_not_committed (Create : MEMORY_BASIC_INFORMATION → Bool)
    (Mbi : MEMORY_BASIC_INFORMATION) (h : Mbi.State ≠ MEM_COMMIT) :
    Process.DumpBlock Create Mbi = { result := .fault, sinkCalls := [] } := by
  unfold Process.DumpBlock
  rw [if_neg h]

/-- C14 (the code departs from it): the claim asks that `DumpBlock` return
false on a region that is not committed.  On the descriptor of a reserved
region the sink is not called, as the claim says, but control leaves the
function at its closing brace, with no `return`: the value is not defined, and
in particular it is not the failure the claim asks for. -/
theorem DumpBlock_reserved_fault :
    reservedMbi.State ≠ MEM_COMMIT ∧
    ∀ Create : MEMORY_BASIC_INFORMATION → Bool,
      (Process.DumpBlock Create reservedMbi).sinkCalls = [] ∧
      (Process.DumpBlock Create reservedMbi).result = .fault ∧
      (Process.DumpBlock Create reservedMbi).result ≠ .ok false := by
  refine ⟨by decide, fun Create => ?_⟩
  rw [DumpBlock_not_committed Create reservedMbi (by decide)]
  exact ⟨rfl, rfl, by simp⟩

/-! ## Claims on `AlignName` -/

theorem cstr_cstr (x : List Char) : cstr (cstr x) = cstr x :=
  cstr_eq_self _ (cstr_ne_zero x)

theorem cstr_blank : cstr " ".toList = [blank] := by decide

theorem alignLoop_spaces (destsz k : Nat) (buf : List Char) (h0 : ∀ c ∈ buf, c.toNat ≠ 0)
    (hfit : buf.length + k < destsz) :
    alignLoop destsz k buf = some (buf ++ List.replicate k blank) := by
  induction k generalizing buf with
  | zero => simp [alignLoop]
  | succ k ih =>
    have hcat : wcscat_s buf destsz " ".toList = some (buf ++ [blank]) := by
      unfold wcscat_s
      rw [cstr_eq_self buf h0, cstr_blank, if_pos (by simp only [List.length_singleton]; omega)]
    simp only [alignLoop, hcat]
    rw [ih (buf ++ [blank])]
    · simp [List.replicate_succ]
    · intro c hc
      rcases List.mem_append.mp hc with hc | hc
      · exact h0 c hc
      · simp only [List.mem_singleton] at hc
        rw [hc]; decide
    · simp only [List.length_append, List.length_singleton]; omega

theorem AlignName_eq (pOriginalName : List Char) (nAlignTo : Int) (h1 : 1 ≤ nAlignTo)
    (h2 : (wcslen pOriginalName : Int) ≤ nAlignTo) :
    AlignName pOriginalName nAlignTo =
      some (cstr pOriginalName ++
        List.replicate (nAlignTo.toNat - wcslen pOriginalName) blank) := by
  obtain ⟨n, rfl⟩ := Int.eq_ofNat_of_zero_le (by omega : 0 ≤ nAlignTo)
  have hn : 1 ≤ n := by omega
  have hlen : (cstr pOriginalName).length ≤ n := by
    unfold wcslen at h2; omega
  have hsz : ((n : Int) + 1).toNat = n + 1 := by omega
  unfold AlignName
  rw [if_pos ⟨h1, h2⟩, hsz, Int.toNat_ofNat]
  by_cases hz : wcslen pOriginalName ≠ 0
  · rw [if_pos hz]
    have hcopy : wcsncpy_s (n + 1) pOriginalName n = some (cstr pOriginalName) := by
      unfold wcsncpy_s
      rw [List.take_of_length_le hlen, if_pos (by omega)]
    rw [hcopy]
    simp only
    have hw : wcslen (cstr pOriginalName) = wcslen pOriginalName := by
      unfold wcslen; rw [cstr_cstr]
    rw [hw]
    exact alignLoop_spaces _ _ _ (cstr_ne_zero _) (by unfold wcslen; omega)
  · rw [if_neg hz]
    have hz0 : wcslen pOriginalName = 0 := by omega
    have hnil : cstr pOriginalName = [] := by
      unfold wcslen at hz0
      exact List.length_eq_zero.mp hz0
    have hcopy : wcscpy_s (n + 1) " ".toList = some [blank] := by
      unfold wcscpy_s
      rw [cstr_blank, if_pos (by simp only [List.length_singleton]; omega)]
    rw [hcopy]
    simp only
    rw [alignLoop_spaces (n + 1) (n - 1) [blank] (by decide)
      (by simp only [List.length_singleton]; omega)]
    rw [hnil, hz0, List.nil_append, Nat.sub_zero]
    have : n = (n - 1) + 1 := by omega
    conv_rhs => rw [this, List.replicate_succ]
    rfl

/-- C15: for every width `n ≥ 1` and every name of length at most `n`, the
empty name included, `AlignName` leaves a string of length exactly `n`, the
name followed by `n - length(name)` spaces; so the attribute descriptor that
`Process::Enumerate` renders with `n = 8`, from a descriptor of at most eight
characters, is exactly eight characters wide. -/
theorem AlignName_pads (pOriginalName : List Char) (nAlignTo : Int) (h1 : 1 ≤ nAlignTo)
    (h2 : (wcslen pOriginalName : Int) ≤ nAlignTo) :
    AlignName pOriginalName nAlignTo =
      some (cstr pOriginalName ++
        List.replicate (nAlignTo.toNat - wcslen pOriginalName) blank) ∧
    ((cstr pOriginalName ++
        List.replicate (nAlignTo.toNat - wcslen pOriginalName) blank).length : Int) =
      nAlignTo ∧
    (∀ AttribDesc : List Char, wcslen AttribDesc ≤ 8 →
      ∃ s, AlignedAttribDesc AttribDesc = some s ∧ s.length = 8) := by
  refine ⟨AlignName_eq pOriginalName nAlignTo h1 h2, ?_, ?_⟩
  · unfold wcslen at h2 ⊢
    simp only [List.length_append, List.length_replicate]
    omega
  · intro AttribDesc h8
    refine ⟨_, AlignName_eq AttribDesc 8 (by omega) (by omega), ?_⟩
    unfold wcslen at h8 ⊢
    simp only [List.length_append, List.length_replicate]
    omega

/-- Witness of C15: the mnemonic `RWX` is aligned to `RWX` and five spaces. -/
theorem AlignName_pads_witness :
    AlignName "RWX".toList 8 = some "RWX     ".toList ∧
    AlignName [] 8 = some "        ".toList :=
  ⟨(AlignName_pads "RWX".toList 8 (by decide) (by decide)).1,
   (AlignName_pads [] 8 (by decide) (by decide)).1⟩

/-! ## Claims on the offset of the extension comparison -/

/-- C16: the comparison of line 326 starts at offset `length(path) - 6` of the
backing path.  The offset lies in the buffer of the path exactly when the path
has at least 6 characters; the comparison has a value exactly then, and what
it reads is then a run of characters of the path; and for a
`MISSING_PEB_MODULE` suspicion on a signed image the `switch` of
`FilterSuspicions` is defined exactly when the path has at least 6
characters. -/
theorem winmdOffset_valid_iff (Path : List Char) :
    winmdOffset Path = (Path.length : Int) - 6 ∧
    (offsetInPath Path (winmdOffset Path) ↔ 6 ≤ Path.length) ∧
    (winmdCompare Path ≠ none ↔ offsetInPath Path (winmdOffset Path)) ∧
    (6 ≤ Path.length → cstr (Path.drop (winmdOffset Path).toNat) <:+: Path) ∧
    (∀ (s : Suspicion) (pe : PeBody), s.SuspType = .MISSING_PEB_MODULE →
      s.Parent = some pe → pe.Signed = true → pe.Path = Path →
      (filterCase s ≠ none ↔ 6 ≤ Path.length)) := by
  have hoff : winmdOffset Path = (Path.length : Int) - 6 := by
    unfold winmdOffset; rw [wcslen_pWinmbExt]; rfl
  have hvalid : offsetInPath Path (winmdOffset Path) ↔ 6 ≤ Path.length := by
    unfold offsetInPath; rw [hoff]; omega
  have hcmp : winmdCompare Path ≠ none ↔ 6 ≤ Path.length := by
    rw [Ne, winmdCompare_eq_none_iff]; omega
  refine ⟨hoff, hvalid, by rw [hcmp, hvalid], ?_, ?_⟩
  · intro _
    have h1 : cstr (Path.drop (winmdOffset Path).toNat) <+: Path.drop (winmdOffset Path).toNat :=
      List.takeWhile_prefix _
    have h2 : Path.drop (winmdOffset Path).toNat <:+ Path := List.drop_suffix _ _
    exact h1.isInfix.trans h2.isInfix
  · intro s pe hT hP hS hPath
    rw [Ne, filterCase_eq_none_iff, not_not]
    unfold examinable
    constructor
    · intro h
      obtain ⟨pe1, hpe1, hlen⟩ := h hT
      rw [hP] at hpe1
      cases hpe1
      rw [← hPath]
      exact hlen hS
    · intro h _
      exact ⟨pe, hP, fun _ => by rw [hPath]; exact h⟩

/-! ## `Process::Enumerate` on the snapshots the constructor builds -/

theorem regionWalk_ok_created (results : List (Option Subregion)) (st : WalkState)
    (Entities : EntityMap) (hst : walkInv st) (h : regionWalk results st = .ok Entities) :
    ∀ p ∈ Entities, ∃ R r, p.2 = Entity.Create R r := by
  induction results generalizing st with
  | nil => simp [regionWalk] at h
  | cons q rest ih =>
    cases q with
    | none =>
      simp only [regionWalk, Outcome.ok.injEq] at h
      subst h
      intro p hp
      obtain ⟨R, r, hR, _⟩ := (finalizeGroup_inv st hst).2 p hp
      exact ⟨R, r, hR⟩
    | some Sbr =>
      simp only [regionWalk] at h
      exact ih (walkQuery st Sbr) (walkInv_walkQuery st Sbr hst) h

/-- Every entity of a process the constructor has built was made by
`Entity::Create` from a group of the region walk. -/
theorem Construct_created (dwPid : Nat) (os : OsAnswers) (P : Process)
    (h : Process.Construct dwPid os = .built P) :
    ∀ p ∈ P.Entities, ∃ R r, p.2 = Entity.Create R r := by
  unfold Process.Construct at h
  split at h
  · split at h
    · cases h
    · split at h
      · cases h
      · split at h
        · rename_i Entities hw
          cases h
          exact regionWalk_ok_created os.RegionQueries _ Entities walkInv_init hw
        · cases h
  · cases h

/-- An entity made by `Entity::Create` whose first subregion is private, mapped
or image memory passes the test of line 530. -/
theorem shown_Create (R : Subregion) (r : List Subregion)
    (h : (Entity.Create R r).front.Basic.MemType = MEM_PRIVATE ∨
      (Entity.Create R r).front.Basic.MemType = MEM_MAPPED ∨
      (Entity.Create R r).front.Basic.MemType = MEM_IMAGE) :
    shown (Entity.Create R r) := by
  unfold shown
  simp only [Entity.Create] at h ⊢
  rcases h with h | h | h
  · exact Or.inr (Or.inr h)
  · by_cases hi : R.Basic.MemType = MEM_IMAGE
    · exact Or.inl (by rw [if_pos hi])
    · exact Or.inr (Or.inl (by rw [if_neg hi, if_pos h]))
  · exact Or.inl (by rw [if_pos h])

theorem filteredSuspicions_ok_eq (Inspected M : SuspicionsMap)
    (h : filteredSuspicions Inspected = .ok M) : M = Inspected := by
  unfold filteredSuspicions at h
  split at h
  · exact ((FilterSuspicions_ok_iff Inspected M).mp h).1
  · cases h
    rfl

end Moneta
